import Mathlib

/-!
Verification of the NFC tag codec and session logic of `src/index.js`.

The development shallowly embeds the JavaScript source:
* JS strings are `List Char` (Lean `Char` is a Unicode scalar value; the code
  under study never manufactures lone surrogates, so this is faithful).
* Node `Buffer`s are `List Nat` of byte values.
* `JSON.stringify` / `JSON.parse` are embedded for the JSON fragment the
  routes exchange, with one modelling restriction: JS numbers are IEEE-754
  doubles, which a shallow embedding cannot state exactly, so the model's
  numbers are exact integers (`Int`).  Every other part of the grammar —
  strings with the full escape set, nested arrays and objects, duplicate-key
  resolution — follows the JS semantics.
* The reader hardware is an explicit function `Nat → Option (List Nat)`
  (block index to bytes, `none` = read failure), and the write path's medium
  is a block store updated by the issued write calls.
-/

/- ===================== bytes, UTF-8, JS string helpers ===================== -/

/-- UTF-8 encoding of one Unicode scalar value, as byte values. -/
def utf8Char (c : Char) : List Nat :=
  let n := c.toNat
  if n < 0x80 then [n]
  else if n < 0x800 then [0xC0 + n / 0x40, 0x80 + n % 0x40]
  else if n < 0x10000 then
    [0xE0 + n / 0x1000, 0x80 + n / 0x40 % 0x40, 0x80 + n % 0x40]
  else
    [0xF0 + n / 0x40000, 0x80 + n / 0x1000 % 0x40, 0x80 + n / 0x40 % 0x40,
     0x80 + n % 0x40]

/-- UTF-8 encoding of a whole string. -/
def utf8Str (s : List Char) : List Nat := s.flatMap utf8Char

/-- `Buffer.byteLength(s)`: the UTF-8 byte count of `s`. -/
def byteLength (s : List Char) : Nat := (utf8Str s).length

/-- `s.length` in JS: the number of UTF-16 code units (supplementary-plane
scalars count twice). -/
def utf16Len (s : List Char) : Nat :=
  (s.map fun c => if c.toNat < 0x10000 then 1 else 2).sum

/-- Is `b` a UTF-8 continuation byte (`10xxxxxx`)? -/
def isCont (b : Nat) : Bool := 0x80 ≤ b && b < 0xC0

/-- The replacement character emitted for invalid UTF-8 input. -/
def repl : Char := Char.ofNat 0xFFFD

/-- Decoder state of the WHATWG UTF-8 decoder: the partial code point, how
many continuation bytes are still expected, and the admissible range for the
next byte. -/
structure U8St where
  codep : Nat
  needed : Nat
  lo : Nat
  hi : Nat
deriving DecidableEq, Repr

/-- The decoder's initial state. -/
def u8Init : U8St := ⟨0, 0, 0x80, 0xBF⟩

/-- One byte fed into a fresh decoder state: classify a leading byte. -/
def u8Lead (b : Nat) : U8St × List Char :=
  if b < 0x80 then (u8Init, [Char.ofNat b])
  else if 0xC2 ≤ b ∧ b ≤ 0xDF then (⟨b - 0xC0, 1, 0x80, 0xBF⟩, [])
  else if 0xE0 ≤ b ∧ b ≤ 0xEF then
    (⟨b - 0xE0, 2, if b = 0xE0 then 0xA0 else 0x80, if b = 0xED then 0x9F else 0xBF⟩, [])
  else if 0xF0 ≤ b ∧ b ≤ 0xF4 then
    (⟨b - 0xF0, 3, if b = 0xF0 then 0x90 else 0x80, if b = 0xF4 then 0x8F else 0xBF⟩, [])
  else (u8Init, [repl])

/-- One step of the WHATWG UTF-8 decoder: feed byte `b` in state `st`,
yielding the next state and the scalars emitted.  A continuation byte out of
range emits U+FFFD and reprocesses the byte as a lead byte (maximal-subpart
replacement, as Node's `buf.toString('utf-8')` does). -/
def u8Step (st : U8St) (b : Nat) : U8St × List Char :=
  if st.needed = 0 then u8Lead b
  else if st.lo ≤ b ∧ b ≤ st.hi then
    let cp := st.codep * 0x40 + (b - 0x80)
    if st.needed = 1 then (u8Init, [Char.ofNat cp])
    else (⟨cp, st.needed - 1, 0x80, 0xBF⟩, [])
  else
    let (st', out) := u8Lead b
    (st', repl :: out)

/-- Run the decoder over a byte list from state `st`; a dangling partial
sequence at end of input emits a final U+FFFD. -/
def u8Run (st : U8St) : List Nat → List Char
  | [] => if st.needed = 0 then [] else [repl]
  | b :: t =>
    let (st', out) := u8Step st b
    out ++ u8Run st' t

/-- Node's `buf.toString('utf-8')`: WHATWG-decode the bytes, substituting
U+FFFD for invalid sequences. -/
def utf8Decode (bs : List Nat) : List Char := u8Run u8Init bs

/-- `.replace(/\0/g, '')`: remove every U+0000 from a JS string. -/
def stripNulls (s : List Char) : List Char := s.filter fun c => c.toNat ≠ 0

/-- The JS whitespace set recognised by `String.prototype.trim` (WhiteSpace
plus line terminators). -/
def isJsWs (c : Char) : Bool :=
  c.toNat = 0x9 || c.toNat = 0xA || c.toNat = 0xB || c.toNat = 0xC ||
  c.toNat = 0xD || c.toNat = 0x20 || c.toNat = 0xA0 || c.toNat = 0x1680 ||
  (0x2000 ≤ c.toNat && c.toNat ≤ 0x200A) || c.toNat = 0x2028 ||
  c.toNat = 0x2029 || c.toNat = 0x202F || c.toNat = 0x205F ||
  c.toNat = 0x3000 || c.toNat = 0xFEFF

/-- `s.trim()`: drop JS whitespace from both ends. -/
def jsTrim (s : List Char) : List Char :=
  ((s.dropWhile isJsWs).reverse.dropWhile isJsWs).reverse

/- ===================== JSON values and JSON.stringify ===================== -/

/-- A JSON value as exchanged by the routes.  Strings are scalar sequences;
object members keep their JS insertion order.  Modelling restriction: JS
numbers are IEEE-754 doubles; the model carries exact integers instead, so
fractional/exponent literals are outside the model (the codec under study
never manufactures numbers itself). -/
inductive JVal where
  | jnull
  | jbool (b : Bool)
  | jnum (i : Int)
  | jstr (s : List Char)
  | jarr (items : List JVal)
  | jobj (fields : List (List Char × JVal))
deriving Repr

mutual
/-- Structural (deep) equality test on JSON values. -/
def jvalBEq : JVal → JVal → Bool
  | .jnull, .jnull => true
  | .jbool a, .jbool b => a == b
  | .jnum a, .jnum b => a == b
  | .jstr a, .jstr b => a == b
  | .jarr a, .jarr b => jitemsBEq a b
  | .jobj a, .jobj b => jfieldsBEq a b
  | _, _ => false
/-- Deep equality on item lists. -/
def jitemsBEq : List JVal → List JVal → Bool
  | [], [] => true
  | a :: l, b :: m => jvalBEq a b && jitemsBEq l m
  | _, _ => false
/-- Deep equality on member lists. -/
def jfieldsBEq : List (List Char × JVal) → List (List Char × JVal) → Bool
  | [], [] => true
  | (k, v) :: l, (k2, v2) :: m => k == k2 && jvalBEq v v2 && jfieldsBEq l m
  | _, _ => false
end

/-- The decimal digit character for `d < 10`. -/
def digCh (d : Nat) : Char := Char.ofNat (48 + d)

/-- Base-10 digits of `n`, most significant first, fuel-bounded so the
definition is structural (any `fuel ≥ n` computes them in full). -/
def natDigsF : Nat → Nat → List Nat
  | _, 0 => []
  | 0, _ + 1 => []
  | f + 1, n + 1 => natDigsF f ((n + 1) / 10) ++ [(n + 1) % 10]

/-- Base-10 digits of `n`, most significant first (`[]` for `0`). -/
def natDigs (n : Nat) : List Nat := natDigsF n n

/-- The decimal numeral of `n`, as JS prints a nonnegative integer. -/
def decNat (n : Nat) : List Char := if n = 0 then ['0'] else (natDigs n).map digCh

/-- The decimal numeral of `i`, as `JSON.stringify` prints an integral
number (`-0` prints as `0`, like JS). -/
def decInt (i : Int) : List Char :=
  (if i < 0 then ['-'] else []) ++ decNat i.natAbs

/-- Lowercase hex digit character, as JS `\u00xx` escapes use. -/
def hexCh (d : Nat) : Char :=
  if d < 10 then Char.ofNat (48 + d) else Char.ofNat (87 + d)

/-- `JSON.stringify`'s escaping of one string character: `"` and `\` get a
backslash, the five short control escapes are used where they exist, any
other control character becomes `\u00xx`, everything else is copied. -/
def escChar (c : Char) : List Char :=
  if c = '"' then ['\\', '"']
  else if c = '\\' then ['\\', '\\']
  else if c.toNat = 8 then ['\\', 'b']
  else if c.toNat = 9 then ['\\', 't']
  else if c.toNat = 10 then ['\\', 'n']
  else if c.toNat = 12 then ['\\', 'f']
  else if c.toNat = 13 then ['\\', 'r']
  else if c.toNat < 0x20 then
    ['\\', 'u', '0', '0', hexCh (c.toNat / 16), hexCh (c.toNat % 16)]
  else [c]

/-- The body of a stringified string literal. -/
def escStr (s : List Char) : List Char := s.flatMap escChar

/-- A stringified string literal, quotes included. -/
def quoteStr (s : List Char) : List Char := '"' :: (escStr s ++ ['"'])

mutual
/-- `JSON.stringify(v)` (no spacing argument, as the route calls it). -/
def jsonStr : JVal → List Char
  | .jnull => ['n', 'u', 'l', 'l']
  | .jbool true => ['t', 'r', 'u', 'e']
  | .jbool false => ['f', 'a', 'l', 's', 'e']
  | .jnum i => decInt i
  | .jstr s => quoteStr s
  | .jarr l => '[' :: (itemsStr l ++ [']'])
  | .jobj l => '{' :: (fieldsStr l ++ ['}'])
/-- Comma-joined stringified array items. -/
def itemsStr : List JVal → List Char
  | [] => []
  | [v] => jsonStr v
  | v :: w :: t => jsonStr v ++ ',' :: itemsStr (w :: t)
/-- Comma-joined stringified object members. -/
def fieldsStr : List (List Char × JVal) → List Char
  | [] => []
  | [(k, v)] => quoteStr k ++ ':' :: jsonStr v
  | (k, v) :: f :: t => quoteStr k ++ ':' :: (jsonStr v ++ ',' :: fieldsStr (f :: t))
end

/- ===================== JSON.parse ===================== -/

/-- Decimal digit test (`0`–`9`). -/
def isDig (c : Char) : Bool := 48 ≤ c.toNat && c.toNat ≤ 57

/-- JSON's insignificant whitespace (space, tab, LF, CR). -/
def jsonWs (c : Char) : Bool :=
  c.toNat = 0x20 || c.toNat = 0x9 || c.toNat = 0xA || c.toNat = 0xD

/-- Skip insignificant whitespace. -/
def skipWs (s : List Char) : List Char := s.dropWhile jsonWs

/-- The number denoted by a run of decimal digit characters. -/
def digsVal (ds : List Char) : Nat :=
  ds.foldl (fun a c => a * 10 + (c.toNat - 48)) 0

/-- The value of one hex digit character, either case. -/
def hexVal (c : Char) : Option Nat :=
  if 48 ≤ c.toNat ∧ c.toNat ≤ 57 then some (c.toNat - 48)
  else if 97 ≤ c.toNat ∧ c.toNat ≤ 102 then some (c.toNat - 87)
  else if 65 ≤ c.toNat ∧ c.toNat ≤ 70 then some (c.toNat - 55)
  else none

/-- The value of a 4-hex-digit escape body. -/
def hex4 (a b c d : Char) : Option Nat := do
  let x ← hexVal a
  let y ← hexVal b
  let z ← hexVal c
  let w ← hexVal d
  pure (((x * 16 + y) * 16 + z) * 16 + w)

/-- Lex a JSON string body after the opening quote into UTF-16 code-unit
values, JS-style: the eight single-character escapes, `\uXXXX` (any 4 hex
digits, surrogate halves included), raw control characters rejected; a raw
supplementary-plane character contributes its scalar value as one entry. -/
def strUnits : List Char → Option (List Nat × List Char)
  | '"' :: r => some ([], r)
  | '\\' :: r =>
    match r with
    | '"' :: t => (strUnits t).map fun p => (34 :: p.1, p.2)
    | '\\' :: t => (strUnits t).map fun p => (92 :: p.1, p.2)
    | '/' :: t => (strUnits t).map fun p => (47 :: p.1, p.2)
    | 'b' :: t => (strUnits t).map fun p => (8 :: p.1, p.2)
    | 'f' :: t => (strUnits t).map fun p => (12 :: p.1, p.2)
    | 'n' :: t => (strUnits t).map fun p => (10 :: p.1, p.2)
    | 'r' :: t => (strUnits t).map fun p => (13 :: p.1, p.2)
    | 't' :: t => (strUnits t).map fun p => (9 :: p.1, p.2)
    | 'u' :: a :: b :: c :: d :: t =>
      match hex4 a b c d with
      | none => none
      | some n => (strUnits t).map fun p => (n :: p.1, p.2)
    | _ => none
  | c :: r => if c.toNat < 0x20 then none else (strUnits r).map fun p => (c.toNat :: p.1, p.2)
  | [] => none

/-- Interpret one code unit with no surrogate half pending: a high half
becomes pending, a stray low half is unpairable (a lone surrogate, rendered
U+FFFD in the scalar model), anything else is a scalar. -/
def unitOne (n : Nat) : Option Nat × List Char :=
  if 0xD800 ≤ n ∧ n ≤ 0xDBFF then (some n, [])
  else if 0xDC00 ≤ n ∧ n ≤ 0xDFFF then (none, [repl])
  else (none, [Char.ofNat n])

/-- Turn a code-unit sequence into scalars, pairing a pending high surrogate
with a following low one (a JS string keeps lone halves; the scalar model
renders each as U+FFFD). -/
def unitsRun : Option Nat → List Nat → List Char
  | pending, [] => if pending.isSome then [repl] else []
  | pending, n :: rest =>
    match pending with
    | some h =>
      if 0xDC00 ≤ n ∧ n ≤ 0xDFFF then
        Char.ofNat (0x10000 + (h - 0xD800) * 0x400 + (n - 0xDC00)) :: unitsRun none rest
      else
        let (p, out) := unitOne n
        repl :: (out ++ unitsRun p rest)
    | none =>
      let (p, out) := unitOne n
      out ++ unitsRun p rest

/-- Parse a JSON string body after the opening quote, JS-style. -/
def parseJStr (s : List Char) : Option (List Char × List Char) :=
  (strUnits s).map fun p => (unitsRun none p.1, p.2)

/-- Does the input continue with a fraction or exponent?  Such literals
denote non-integral doubles, which are outside the model. -/
def floatish : List Char → Bool
  | c :: _ => c = '.' || c = 'e' || c = 'E'
  | [] => false

/-- Parse the unsigned part of a JSON number token: `0`, or a nonzero digit
followed by a digit run (maximal munch, as JSON tokenises). -/
def parseNatPart : List Char → Option (Nat × List Char)
  | '0' :: t => if floatish t then none else some (0, t)
  | c :: t =>
    if isDig c then
      if floatish ((c :: t).dropWhile isDig) then none
      else some (digsVal ((c :: t).takeWhile isDig), (c :: t).dropWhile isDig)
    else none
  | [] => none

/-- Parse a JSON number token as an integer (sign, then digits). -/
def parseNum : List Char → Option (Int × List Char)
  | '-' :: s => (parseNatPart s).map fun p => (-(p.1 : Int), p.2)
  | s => (parseNatPart s).map fun p => ((p.1 : Int), p.2)

/-- Assign `k := v` in a JS object under construction: overwrite the value
in place if the key exists, else append (so a duplicate key keeps its first
position but takes its last value, as `JSON.parse` does). -/
def setField (k : List Char) (v : JVal) :
    List (List Char × JVal) → List (List Char × JVal)
  | [] => [(k, v)]
  | (k2, v2) :: t => if k2 = k then (k2, v) :: t else (k2, v2) :: setField k v t

/-- Resolve duplicate keys the way `JSON.parse` builds an object. -/
def dedupFields (l : List (List Char × JVal)) : List (List Char × JVal) :=
  l.foldl (fun acc p => setField p.1 p.2 acc) []

mutual
/-- Parse one JSON value (fuel-bounded; any fuel beyond the input length is
enough, see `jsonParse`). -/
def parseVal : Nat → List Char → Option (JVal × List Char)
  | 0, _ => none
  | fuel + 1, s =>
    match skipWs s with
    | 'n' :: 'u' :: 'l' :: 'l' :: r => some (.jnull, r)
    | 't' :: 'r' :: 'u' :: 'e' :: r => some (.jbool true, r)
    | 'f' :: 'a' :: 'l' :: 's' :: 'e' :: r => some (.jbool false, r)
    | '"' :: r => (parseJStr r).map fun p => (.jstr p.1, p.2)
    | '[' :: r =>
      match skipWs r with
      | ']' :: t => some (.jarr [], t)
      | t => (parseItems fuel t).map fun p => (.jarr p.1, p.2)
    | '{' :: r =>
      match skipWs r with
      | '}' :: t => some (.jobj [], t)
      | t => (parseFields fuel t).map fun p => (.jobj (dedupFields p.1), p.2)
    | s1 => (parseNum s1).map fun p => (.jnum p.1, p.2)
/-- Parse one or more comma-separated array items up to the closing `]`. -/
def parseItems : Nat → List Char → Option (List JVal × List Char)
  | 0, _ => none
  | fuel + 1, s =>
    match parseVal fuel s with
    | none => none
    | some (v, r) =>
      match skipWs r with
      | ',' :: t =>
        match parseItems fuel t with
        | none => none
        | some (l, r2) => some (v :: l, r2)
      | ']' :: t => some ([v], t)
      | _ => none
/-- Parse one or more comma-separated object members up to the closing `}`. -/
def parseFields : Nat → List Char → Option (List (List Char × JVal) × List Char)
  | 0, _ => none
  | fuel + 1, s =>
    match skipWs s with
    | '"' :: r =>
      match parseJStr r with
      | none => none
      | some (k, r1) =>
        match skipWs r1 with
        | ':' :: r2 =>
          match parseVal fuel r2 with
          | none => none
          | some (v, r3) =>
            match skipWs r3 with
            | ',' :: r4 =>
              match parseFields fuel r4 with
              | none => none
              | some (l, r5) => some ((k, v) :: l, r5)
            | '}' :: r4 => some ([(k, v)], r4)
            | _ => none
        | _ => none
    | _ => none
end

/-- `JSON.parse(s)` over the model: parse one value, demand only whitespace
after it.  The fuel `s.length + 1` never runs out on an input the real
parser accepts, since every recursion step first consumes a character. -/
def jsonParse (s : List Char) : Option JVal :=
  match parseVal (s.length + 1) s with
  | some (v, r) => if skipWs r = [] then some v else none
  | none => none

/- ===================== request body spread, truthiness ===================== -/

/-- JS truthiness of a JSON value (`!data` in the route). -/
def jsFalsy : JVal → Bool
  | .jnull => true
  | .jbool b => !b
  | .jnum i => i = 0
  | .jstr s => s.isEmpty
  | .jarr _ => false
  | .jobj _ => false

/-- Members `(String(i), v)` for spreading an indexable value. -/
def enumFrom (i : Nat) : List JVal → List (List Char × JVal)
  | [] => []
  | v :: t => (decNat i, v) :: enumFrom (i + 1) t

/-- `{ ...body }`: own enumerable properties of the body as an object member
list.  Objects keep their members (a runtime JS object has no duplicate
keys, which `dedupFields` canonicalises), arrays and strings spread to
index-keyed members, primitives spread to nothing.  (JS additionally orders
integer-like keys first; the model keeps source order, which deep equality
does not distinguish.) -/
def jsSpread : JVal → List (List Char × JVal)
  | .jobj l => dedupFields l
  | .jarr l => enumFrom 0 l
  | .jstr s => enumFrom 0 (s.map fun c => .jstr [c])
  | _ => []

/- ===================== the /nfcWrite route ===================== -/

/-- Outcome of the write route: the `!data` 400, the missing-reader 500,
the size-limit 400, or success. -/
inductive WriteOutcome where
  | missingData
  | noReader
  | payloadTooLarge
  | ok
deriving DecidableEq, Repr

/-- `Math.ceil(dataString.length / blockSize) * blockSize`: the buffer
length the route allocates — from the UTF-16 length, not the byte length. -/
def padLen (s : List Char) : Nat := (utf16Len s + 3) / 4 * 4

/-- `buffer.write(dataString)`: UTF-8 encode into `room` bytes, stopping
before the first character that does not fit entirely (Node writes no
partial characters). -/
def utf8Fit : List Char → Nat → List Nat
  | [], _ => []
  | c :: t, room =>
    let bs := utf8Char c
    if bs.length ≤ room then bs ++ utf8Fit t (room - bs.length) else []

/-- The padded write buffer: `Buffer.alloc(padLen, 0)` then
`buffer.write(dataString)` — written bytes first, zero tail kept. -/
def encodeBuffer (s : List Char) : List Nat :=
  let w := utf8Fit s (padLen s)
  w ++ List.replicate (padLen s - w.length) 0

/-- The write route (`app.post("/nfcWrite")`): spread the body, check
truthiness, reader presence and the 180-byte limit, then write the buffer
in 4-byte chunks to blocks `4 + i`.  Returns the outcome and the list of
`reader.write` calls issued, in order. -/
def nfcWrite (readerPresent : Bool) (body : JVal) : WriteOutcome × List (Nat × List Nat) :=
  let data := JVal.jobj (jsSpread body)
  if jsFalsy data then (.missingData, [])
  else if !readerPresent then (.noReader, [])
  else
    let dataString := jsonStr data
    if 180 < byteLength dataString then (.payloadTooLarge, [])
    else
      let buffer := encodeBuffer dataString
      (.ok, (List.range (buffer.length / 4)).map fun i =>
        (4 + i, (buffer.drop (4 * i)).take 4))

/- ===================== the /nfcRead route ===================== -/

/-- The reader handle the read route needs: card presence (`reader.card`)
and the block-read capability (`none` = the read throws). -/
structure NfcReader where
  card : Bool
  read : Nat → Option (List Nat)

/-- Whether the fuel-indexed unrolling of the `do … while` loop reached a
terminating iteration; `outOfFuel` means the real loop is still running. -/
inductive LoopStat where
  | finished
  | outOfFuel
deriving DecidableEq, Repr

mutual
theorem jvalBEq_iff : ∀ a b : JVal, jvalBEq a b = true ↔ a = b
  | .jnull, b => by cases b <;> simp [jvalBEq]
  | .jbool x, b => by cases b <;> simp [jvalBEq]
  | .jnum x, b => by cases b <;> simp [jvalBEq]
  | .jstr x, b => by cases b <;> simp [jvalBEq]
  | .jarr x, b => by
    cases b <;> simp only [jvalBEq, Bool.false_eq_true, false_iff] <;>
      try exact fun h => JVal.noConfusion h
    rw [jitemsBEq_iff]
    exact ⟨fun h => by rw [h], fun h => by cases h; rfl⟩
  | .jobj x, b => by
    cases b <;> simp only [jvalBEq, Bool.false_eq_true, false_iff] <;>
      try exact fun h => JVal.noConfusion h
    rw [jfieldsBEq_iff]
    exact ⟨fun h => by rw [h], fun h => by cases h; rfl⟩
theorem jitemsBEq_iff : ∀ l m : List JVal, jitemsBEq l m = true ↔ l = m
  | [], m => by cases m <;> simp [jitemsBEq]
  | a :: l, [] => by simp [jitemsBEq]
  | a :: l, b :: m => by
    simp only [jitemsBEq, Bool.and_eq_true, jvalBEq_iff, jitemsBEq_iff, List.cons.injEq]
theorem jfieldsBEq_iff :
    ∀ l m : List (List Char × JVal), jfieldsBEq l m = true ↔ l = m
  | [], m => by cases m <;> simp [jfieldsBEq]
  | (k, v) :: l, [] => by simp [jfieldsBEq]
  | (k, v) :: l, (k2, v2) :: m => by
    simp only [jfieldsBEq, Bool.and_eq_true, beq_iff_eq, jvalBEq_iff, jfieldsBEq_iff,
      List.cons.injEq, Prod.mk.injEq, and_assoc]
end

instance : DecidableEq JVal := fun a b => decidable_of_iff _ (jvalBEq_iff a b)

/-- Outcome of the read route, one constructor per spec error kind plus the
payload; `diverged` marks fuel exhaustion (the real loop never exits). -/
inductive ReadOutcome where
  | noReader
  | noCardPresent
  | diverged
  | malformedFraming
  | parseError
  | ok (v : JVal)
deriving DecidableEq, Repr

/-- The route's `do … while (unfinished)` loop, unrolled on fuel: read block
`4 + i`, null-strip its decoded text, append the text's UTF-8 bytes to the
accumulator (`Buffer.concat`), stop after a block whose stripped text is
shorter than 4 or whose read throws.  Also returns the indices read. -/
def readLoop (rd : Nat → Option (List Nat)) :
    Nat → Nat → List Nat → List Nat → List Nat × LoopStat × List Nat
  | 0, _, acc, trace => (acc, .outOfFuel, trace)
  | fuel + 1, i, acc, trace =>
    match rd (4 + i) with
    | none => (acc, .finished, trace ++ [4 + i])
    | some chunk =>
      if (stripNulls (utf8Decode chunk)).length < 4 then
        (acc ++ utf8Str (stripNulls (utf8Decode chunk)), .finished, trace ++ [4 + i])
      else readLoop rd fuel (i + 1) (acc ++ utf8Str (stripNulls (utf8Decode chunk)))
        (trace ++ [4 + i])

/-- The read route (`app.get("/nfcRead")`): reader and card checks, the
accumulation loop, then null-strip + trim, the `{`…`}` framing check and
`JSON.parse`.  Returns the outcome and the list of `reader.read` calls
issued. -/
def nfcRead (currentReader : Option NfcReader) (fuel : Nat) : ReadOutcome × List Nat :=
  match currentReader with
  | none => (.noReader, [])
  | some r =>
    if !r.card then (.noCardPresent, [])
    else
      match readLoop r.read fuel 0 [] [] with
      | (_, .outOfFuel, trace) => (.diverged, trace)
      | (buf, .finished, trace) =>
        let dataString := jsTrim (stripNulls (utf8Decode buf))
        if dataString.head? = some '{' ∧ dataString.getLast? = some '}' then
          match jsonParse dataString with
          | some v => (.ok v, trace)
          | none => (.parseError, trace)
        else (.malformedFraming, trace)

/- ===================== the medium and the session registry ===================== -/

/-- An uncorrupted, zero-initialised block medium. -/
def zeroMedium : Nat → List Nat := fun _ => [0, 0, 0, 0]

/-- The medium after a sequence of block writes. -/
def applyWrites (ws : List (Nat × List Nat)) (m : Nat → List Nat) : Nat → List Nat :=
  ws.foldl (fun acc w => fun a => if a = w.1 then w.2 else acc a) m

/-- A healthy reader with a card present, backed by the medium left behind
by `ws`: every block read succeeds and returns the stored block. -/
def mediumReader (ws : List (Nat × List Nat)) : NfcReader :=
  ⟨true, fun a => some (applyWrites ws zeroMedium a)⟩

/-- Hardware events reaching the process: reader attach/detach (the `reader`
and `end` handlers of src) and card presence (the `card` / `card.off`
events). -/
inductive NfcEvent where
  | attach
  | detach
  | cardOn
  | cardOff
deriving DecidableEq, Repr

/-- One event's effect on the session state (`none` = no reader, `some c` =
reader attached, card present iff `c`).  Attach installs a fresh session and
detach clears it, as the src handlers assign `currentReader`.  Modelled from
the spec: the card-presence flag itself is maintained on the reader object
by the `nfc-pcsc` library (not part of src); spec 4.1 sets it on
card-detected and clears it on card-removed, no-op without a session. -/
def registryStep : Option Bool → NfcEvent → Option Bool
  | _, .attach => some false
  | _, .detach => none
  | st, .cardOn => st.map fun _ => true
  | st, .cardOff => st.map fun _ => false

/-- The session state after an event history, starting from no reader. -/
def registryState (evs : List NfcEvent) : Option Bool :=
  evs.foldl registryStep none

/-- The `currentReader` value the routes see after an event history, with
block reads served by `rd`. -/
def sessionReader (evs : List NfcEvent) (rd : Nat → Option (List Nat)) :
    Option NfcReader :=
  (registryState evs).map fun c => ⟨c, rd⟩

/-- Digit values read back by a base-10 left fold. -/
def digsValD (ds : List Nat) : Nat := ds.foldl (fun a d => a * 10 + d) 0

/-- Can the input not extend a number token (no digit, `.`, `e`, `E`)?
Every inter-token position in rendered JSON qualifies. -/
def numStop : List Char → Bool
  | [] => true
  | c :: _ => !(isDig c || c = '.' || c = 'e' || c = 'E')

/-- Does the member list contain key `k`? -/
def hasKey (k : List Char) : List (List Char × JVal) → Bool
  | [] => false
  | (k2, _) :: t => k2 = k || hasKey k t

/-- Are the keys of a member list pairwise distinct? -/
def distinctKeys : List (List Char × JVal) → Bool
  | [] => true
  | (k, _) :: t => !hasKey k t && distinctKeys t

mutual
/-- Does every object inside the value have pairwise-distinct keys?  Values
arriving through `JSON.parse` or built from live JS objects always do. -/
def goodKeys : JVal → Bool
  | .jnull => true
  | .jbool _ => true
  | .jnum _ => true
  | .jstr _ => true
  | .jarr l => goodKeysItems l
  | .jobj l => distinctKeys l && goodKeysFields l
/-- `goodKeys` over array items. -/
def goodKeysItems : List JVal → Bool
  | [] => true
  | v :: t => goodKeys v && goodKeysItems t
/-- `goodKeys` over member values. -/
def goodKeysFields : List (List Char × JVal) → Bool
  | [] => true
  | (_, v) :: t => goodKeys v && goodKeysFields t
end

/-- The bytes the loop accumulates over `k` successfully read blocks starting
at loop index `start`: each block's decoded, null-stripped text, re-encoded. -/
def loopBuf (rd : Nat → Option (List Nat)) : Nat → Nat → List Nat
  | _, 0 => []
  | start, k + 1 =>
    utf8Str (stripNulls (utf8Decode ((rd (4 + start)).getD []))) ++ loopBuf rd (start + 1) k

/-- The block indices the loop reads: `4 + start, …, 4 + start + k - 1`. -/
def loopIdx : Nat → Nat → List Nat
  | _, 0 => []
  | start, k + 1 => (4 + start) :: loopIdx (start + 1) k

/-- A block image: the first four bytes of the given byte list, zero-filled
up to the block size. -/
def padTo4 (bs : List Nat) : List Nat := bs.take 4 ++ List.replicate (4 - (bs.take 4).length) 0

/-- The payload refuting the unrestricted round-trip claim: its string value
is eight `é` (U+00E9), so the serialization is 16 UTF-16 units but 24 UTF-8
bytes, and the route's buffer (sized from the UTF-16 length) truncates it. -/
def c1Payload : JVal := .jobj [(['a'], .jstr (List.replicate 8 (Char.ofNat 0xE9)))]

/-- The payload refuting the unrestricted padding claim: four `€` (U+20AC)
serialize to 12 UTF-16 units but 20 UTF-8 bytes. -/
def c2Payload : JVal := .jobj [(['a'], .jstr (List.replicate 4 (Char.ofNat 0x20AC)))]

/-- A reader whose third block (loop index 2) is only half-populated, with
further blocks holding data that must never be read. -/
def c4Reader : Nat → Option (List Nat) :=
  fun a => if a = 4 ∨ a = 5 then some [97, 97, 97, 97]
    else if a = 6 then some [97, 97, 0, 0] else some [98, 98, 98, 98]

/-- A reader holding `{"ab":1}` in two blocks, whose third read throws. -/
def c5Reader : Nat → Option (List Nat) :=
  fun a => if a = 4 then some [123, 34, 97, 98]
    else if a = 5 then some [34, 58, 49, 125] else none

/-- A reader holding the text `hello` (no braces). -/
def c6Reader : Nat → Option (List Nat) :=
  fun a => if a = 4 then some [104, 101, 108, 108]
    else if a = 5 then some [111, 0, 0, 0] else some [0, 0, 0, 0]

/- ===================== decimal digits: properties ===================== -/

theorem natDigsF_congr : ∀ f g n : Nat, n ≤ f → n ≤ g → natDigsF f n = natDigsF g n := by
  intro f
  induction f with
  | zero =>
    intro g n hf _
    have : n = 0 := Nat.le_zero.mp hf
    subst this
    cases g <;> rfl
  | succ f ih =>
    intro g n hf hg
    match n, g with
    | 0, g => cases g <;> rfl
    | m + 1, g + 1 =>
      show natDigsF f ((m + 1) / 10) ++ _ = natDigsF g ((m + 1) / 10) ++ _
      rw [ih g ((m + 1) / 10) (by omega) (by omega)]

theorem natDigs_succ (n : Nat) (h : 0 < n) : natDigs n = natDigs (n / 10) ++ [n % 10] := by
  match n, h with
  | m + 1, _ =>
    show natDigsF m ((m + 1) / 10) ++ _ = _
    rw [natDigsF_congr m ((m + 1) / 10) ((m + 1) / 10) (by omega) (by omega)]
    rfl

theorem natDigs_lt10 (n : Nat) : ∀ d ∈ natDigs n, d < 10 := by
  induction n using Nat.strong_induction_on with
  | _ n ih =>
    match n with
    | 0 => intro d hd; simp [natDigs, natDigsF] at hd
    | m + 1 =>
      rw [natDigs_succ (m + 1) (by omega)]
      intro d hd
      rcases List.mem_append.mp hd with h | h
      · exact ih ((m + 1) / 10) (by omega) d h
      · simp at h; omega

theorem natDigs_zero : natDigs 0 = [] := rfl

theorem natDigs_headDig (n : Nat) (h : 0 < n) :
    ∃ d t, natDigs n = d :: t ∧ 0 < d ∧ d < 10 := by
  induction n using Nat.strong_induction_on with
  | _ n ih =>
    rw [natDigs_succ n h]
    by_cases h10 : n < 10
    · refine ⟨n % 10, [], ?_, by omega, by omega⟩
      rw [Nat.div_eq_of_lt h10, natDigs_zero]
      simp [Nat.mod_eq_of_lt h10]
    · obtain ⟨d, t, hdt, hd0, hd10⟩ := ih (n / 10) (by omega) (by omega)
      exact ⟨d, t ++ [n % 10], by rw [hdt]; rfl, hd0, hd10⟩

theorem digsValD_append_one (l : List Nat) (d : Nat) :
    digsValD (l ++ [d]) = digsValD l * 10 + d := by
  simp [digsValD, List.foldl_append]

theorem digsValD_natDigs (n : Nat) : digsValD (natDigs n) = n := by
  induction n using Nat.strong_induction_on with
  | _ n ih =>
    match n with
    | 0 => rfl
    | m + 1 =>
      rw [natDigs_succ (m + 1) (by omega), digsValD_append_one,
        ih ((m + 1) / 10) (by omega)]
      omega

theorem digCh_toNat (d : Nat) (h : d < 10) : (digCh d).toNat = 48 + d := by
  interval_cases d <;> decide

theorem digCh_isDig (d : Nat) (h : d < 10) : isDig (digCh d) = true := by
  interval_cases d <;> decide

theorem digCh_pos_ne_zeroCh (d : Nat) (h0 : 0 < d) (h : d < 10) : digCh d ≠ '0' := by
  interval_cases d <;> decide

theorem digCh_ne_minus (d : Nat) (h : d < 10) : digCh d ≠ '-' := by
  interval_cases d <;> decide

theorem digsVal_digCh (ds : List Nat) (h : ∀ d ∈ ds, d < 10) :
    digsVal (ds.map digCh) = digsValD ds := by
  suffices key : ∀ a : Nat,
      (ds.map digCh).foldl (fun a c => a * 10 + (c.toNat - 48)) a =
        ds.foldl (fun a d => a * 10 + d) a by
    exact key 0
  induction ds with
  | nil => intro a; rfl
  | cons d t ih =>
    intro a
    have hd : d < 10 := h d (by simp)
    simp only [List.map_cons, List.foldl_cons, digCh_toNat d hd]
    rw [ih (fun x hx => h x (by simp [hx]))]
    congr 1
    omega

/- ===================== number token round trip ===================== -/

theorem takeWhile_digits_append (ds rest : List Char)
    (h : ∀ c ∈ ds, isDig c = true) (h2 : numStop rest = true) :
    (ds ++ rest).takeWhile isDig = ds ∧ (ds ++ rest).dropWhile isDig = rest := by
  induction ds with
  | nil =>
    simp only [List.nil_append]
    cases rest with
    | nil => exact ⟨rfl, rfl⟩
    | cons c t =>
      simp only [numStop, Bool.not_eq_true', Bool.or_eq_false_iff] at h2
      constructor <;> simp [List.takeWhile_cons, List.dropWhile_cons, h2.1.1.1]
  | cons c t ih =>
    have hc : isDig c = true := h c (by simp)
    have := ih fun x hx => h x (by simp [hx])
    constructor <;> simp [List.takeWhile_cons, List.dropWhile_cons, hc, this.1, this.2]

theorem numStop_floatish (rest : List Char) (h : numStop rest = true) :
    floatish rest = false := by
  cases rest with
  | nil => rfl
  | cons c t =>
    simp only [numStop, Bool.not_eq_true', Bool.or_eq_false_iff] at h
    simp [floatish, h.1.1.2, h.1.2, h.2]

theorem parseNatPart_dec (n : Nat) (rest : List Char) (h : numStop rest = true) :
    parseNatPart (decNat n ++ rest) = some (n, rest) := by
  by_cases h0 : n = 0
  · subst h0
    show parseNatPart ('0' :: rest) = some (0, rest)
    simp [parseNatPart, numStop_floatish rest h]
  · obtain ⟨d, t, hdt, hd0, hd10⟩ := natDigs_headDig n (by omega)
    have hdigs : ∀ c ∈ (natDigs n).map digCh, isDig c = true := by
      intro c hc
      obtain ⟨x, hx, rfl⟩ := List.mem_map.mp hc
      exact digCh_isDig x (natDigs_lt10 n x hx)
    have harg : decNat n ++ rest = digCh d :: ((t.map digCh) ++ rest) := by
      simp [decNat, h0, hdt]
    rw [harg]
    have hspan := takeWhile_digits_append ((natDigs n).map digCh) rest hdigs h
    rw [hdt] at hspan
    simp only [List.map_cons, List.cons_append] at hspan
    have hval : digsVal (digCh d :: t.map digCh) = n := by
      have h1 : digsVal ((natDigs n).map digCh) = n := by
        rw [digsVal_digCh (natDigs n) (natDigs_lt10 n), digsValD_natDigs]
      rw [hdt] at h1
      simpa using h1
    show parseNatPart (digCh d :: (t.map digCh ++ rest)) = some (n, rest)
    rw [parseNatPart.eq_def]
    split
    · rename_i heq
      exact absurd (List.cons.inj heq).1 (digCh_pos_ne_zeroCh d hd0 hd10)
    · rename_i c r heq
      obtain ⟨rfl, rfl⟩ := List.cons.inj heq
      rw [if_pos (digCh_isDig d hd10), hspan.1, hspan.2, numStop_floatish rest h, hval]
      rfl
    · rename_i heq
      exact absurd heq (by simp)

theorem parseNum_cons_ne (c : Char) (t : List Char) (hc : c ≠ '-') :
    parseNum (c :: t) = (parseNatPart (c :: t)).map fun p => ((p.1 : Int), p.2) := by
  rw [parseNum.eq_def]
  split
  · rename_i s heq
    exact absurd (List.cons.inj heq).1 hc
  · rfl

theorem parseNum_dec (i : Int) (rest : List Char) (h : numStop rest = true) :
    parseNum (decInt i ++ rest) = some (i, rest) := by
  by_cases hneg : i < 0
  · have harg : decInt i ++ rest = '-' :: (decNat i.natAbs ++ rest) := by
      simp [decInt, hneg]
    rw [harg]
    show (parseNatPart (decNat i.natAbs ++ rest)).map _ = _
    rw [parseNatPart_dec i.natAbs rest h]
    simp only [Option.map_some']
    congr 2
    omega
  · have hna : decInt i = decNat i.natAbs := by simp [decInt, hneg]
    have hhead : ∃ c t, decNat i.natAbs = c :: t ∧ c ≠ '-' := by
      by_cases h0 : i.natAbs = 0
      · exact ⟨'0', [], by simp [decNat, h0], by decide⟩
      · obtain ⟨d, t, hdt, hd0, hd10⟩ := natDigs_headDig i.natAbs (by omega)
        exact ⟨digCh d, t.map digCh, by simp [decNat, h0, hdt], digCh_ne_minus d hd10⟩
    obtain ⟨c, t, hct, hcm⟩ := hhead
    have harg : decInt i ++ rest = c :: (t ++ rest) := by rw [hna, hct]; rfl
    rw [harg, parseNum_cons_ne c (t ++ rest) hcm,
      show c :: (t ++ rest) = decNat i.natAbs ++ rest from by rw [hct]; rfl,
      parseNatPart_dec i.natAbs rest h]
    simp only [Option.map_some']
    congr 2
    omega

/- ===================== string literal round trip ===================== -/

theorem char_not_surr (c : Char) : c.toNat < 0xD800 ∨ 0xDFFF < c.toNat := by
  rcases c.valid with h | ⟨h1, _⟩
  · exact Or.inl h
  · exact Or.inr h1

theorem hexVal_hexCh (v : Nat) (h : v < 16) : hexVal (hexCh v) = some v := by
  interval_cases v <;> decide

theorem strUnits_u (a b c d : Char) (t : List Char) :
    strUnits ('\\' :: 'u' :: a :: b :: c :: d :: t) =
      (match hex4 a b c d with
      | none => none
      | some n => (strUnits t).map fun p => (n :: p.1, p.2)) := rfl

set_option maxHeartbeats 1600000 in
theorem strUnits_esc (c : Char) (rest : List Char) :
    strUnits (escChar c ++ rest) = (strUnits rest).map fun p => (c.toNat :: p.1, p.2) := by
  by_cases h1 : c = '"'
  · subst h1; rfl
  by_cases h2 : c = '\\'
  · subst h2; rfl
  by_cases h3 : c.toNat = 8
  · simp only [escChar, if_neg h1, if_neg h2, if_pos h3, h3]; rfl
  by_cases h4 : c.toNat = 9
  · simp only [escChar, if_neg h1, if_neg h2, if_neg h3, if_pos h4, h4]; rfl
  by_cases h5 : c.toNat = 10
  · simp only [escChar, if_neg h1, if_neg h2, if_neg h3, if_neg h4, if_pos h5, h5]; rfl
  by_cases h6 : c.toNat = 12
  · simp only [escChar, if_neg h1, if_neg h2, if_neg h3, if_neg h4, if_neg h5, if_pos h6, h6]
    rfl
  by_cases h7 : c.toNat = 13
  · simp only [escChar, if_neg h1, if_neg h2, if_neg h3, if_neg h4, if_neg h5, if_neg h6,
      if_pos h7, h7]
    rfl
  by_cases h8 : c.toNat < 0x20
  · have e0 : hexVal '0' = some 0 := by decide
    have ehi := hexVal_hexCh (c.toNat / 16) (by omega)
    have elo := hexVal_hexCh (c.toNat % 16) (by omega)
    have hhex : hex4 '0' '0' (hexCh (c.toNat / 16)) (hexCh (c.toNat % 16)) = some c.toNat := by
      simp only [hex4, e0, ehi, elo, Option.bind_eq_bind, Option.some_bind, Option.pure_def,
        Option.some.injEq]
      omega
    simp only [escChar, if_neg h1, if_neg h2, if_neg h3, if_neg h4, if_neg h5, if_neg h6,
      if_neg h7, if_pos h8, List.cons_append, List.nil_append]
    rw [strUnits_u, hhex]
  · simp only [escChar, if_neg h1, if_neg h2, if_neg h3, if_neg h4, if_neg h5, if_neg h6,
      if_neg h7, if_neg h8, List.cons_append, List.nil_append]
    rw [strUnits.eq_def]
    split
    · rename_i heq
      exact absurd (List.cons.inj heq).1 h1
    · rename_i heq
      exact absurd (List.cons.inj heq).1 h2
    · rename_i c2 r heq
      obtain ⟨rfl, rfl⟩ := List.cons.inj heq
      rw [if_neg (by omega)]
    · rename_i heq
      exact absurd heq (by simp)

theorem strUnits_escStr (s : List Char) : ∀ rest : List Char,
    strUnits (escStr s ++ '"' :: rest) = some (s.map Char.toNat, rest) := by
  induction s with
  | nil => intro rest; rfl
  | cons c s ih =>
    intro rest
    show strUnits ((escChar c ++ escStr s) ++ '"' :: rest) = _
    rw [List.append_assoc, strUnits_esc, ih rest]
    rfl

theorem unitOne_char (c : Char) : unitOne c.toNat = (none, [c]) := by
  rcases char_not_surr c with h | h
  · rw [unitOne, if_neg (by omega), if_neg (by omega), Char.ofNat_toNat]
  · rw [unitOne, if_neg (by omega), if_neg (by omega), Char.ofNat_toNat]

theorem unitsRun_chars (s : List Char) : unitsRun none (s.map Char.toNat) = s := by
  induction s with
  | nil => rfl
  | cons c s ih =>
    show unitsRun none (c.toNat :: s.map Char.toNat) = c :: s
    rw [unitsRun, unitOne_char]
    simpa using ih

theorem parseJStr_quote (s rest : List Char) :
    parseJStr (escStr s ++ '"' :: rest) = some (s, rest) := by
  rw [parseJStr, strUnits_escStr s rest]
  simp [unitsRun_chars]

/- ===================== duplicate keys and dedup ===================== -/

theorem hasKey_append (k : List Char) (l m : List (List Char × JVal)) :
    hasKey k (l ++ m) = (hasKey k l || hasKey k m) := by
  induction l with
  | nil => rfl
  | cons p t ih =>
    obtain ⟨k2, v2⟩ := p
    simp [hasKey, ih, Bool.or_assoc]

theorem hasKey_of_mem (k : List Char) (v : JVal) (l : List (List Char × JVal))
    (h : (k, v) ∈ l) : hasKey k l = true := by
  induction l with
  | nil => simp at h
  | cons p t ih =>
    obtain ⟨k2, v2⟩ := p
    rcases List.mem_cons.mp h with hh | hh
    · obtain ⟨rfl, rfl⟩ := Prod.mk.inj hh
      simp [hasKey]
    · simp [hasKey, ih hh]

theorem setField_absent (k : List Char) (v : JVal) (l : List (List Char × JVal))
    (h : hasKey k l = false) : setField k v l = l ++ [(k, v)] := by
  induction l with
  | nil => rfl
  | cons p t ih =>
    obtain ⟨k2, v2⟩ := p
    simp only [hasKey, Bool.or_eq_false_iff, decide_eq_false_iff_not] at h
    simp [setField, h.1, ih h.2]

theorem foldl_setField_distinct (l : List (List Char × JVal)) :
    ∀ acc : List (List Char × JVal), distinctKeys l = true →
    (∀ k v, (k, v) ∈ l → hasKey k acc = false) →
    l.foldl (fun acc p => setField p.1 p.2 acc) acc = acc ++ l := by
  induction l with
  | nil => intro acc _ _; simp
  | cons p t ih =>
    intro acc hdist habs
    obtain ⟨k, v⟩ := p
    simp only [distinctKeys, Bool.and_eq_true, Bool.not_eq_true'] at hdist
    have hk : hasKey k acc = false := habs k v (by simp)
    simp only [List.foldl_cons, setField_absent k v acc hk]
    rw [ih (acc ++ [(k, v)]) hdist.2]
    · simp
    · intro k2 v2 hmem
      rw [hasKey_append]
      have h1 : hasKey k2 acc = false := habs k2 v2 (by simp [hmem])
      have hne : k ≠ k2 := by
        intro hkk
        subst hkk
        have := hasKey_of_mem k v2 t hmem
        rw [hdist.1] at this
        exact Bool.noConfusion this
      have h2 : hasKey k2 [(k, v)] = false := by simp [hasKey, hne]
      simp [h1, h2]

theorem dedupFields_distinct (l : List (List Char × JVal)) (h : distinctKeys l = true) :
    dedupFields l = l := by
  have := foldl_setField_distinct l [] h (fun k v _ => rfl)
  simpa [dedupFields] using this

/- ===================== heads of rendered values ===================== -/

theorem decInt_head (i : Int) :
    ∃ c t, decInt i = c :: t ∧ (c = '-' ∨ isDig c = true) := by
  by_cases hneg : i < 0
  · exact ⟨'-', decNat i.natAbs, by simp [decInt, hneg], Or.inl rfl⟩
  · by_cases h0 : i.natAbs = 0
    · exact ⟨'0', [], by simp [decInt, hneg, decNat, h0], Or.inr (by decide)⟩
    · obtain ⟨d, t, hdt, hd0, hd10⟩ := natDigs_headDig i.natAbs (by omega)
      exact ⟨digCh d, t.map digCh,
        by simp [decInt, hneg, decNat, h0, hdt], Or.inr (digCh_isDig d hd10)⟩

theorem isDig_ne (c d : Char) (h : isDig c = true) (hd : isDig d = false) : c ≠ d := by
  intro hrfl
  subst hrfl
  rw [h] at hd
  exact Bool.noConfusion hd

theorem isDig_not_ws (c : Char) (h : isDig c = true) : jsonWs c = false := by
  simp only [isDig, Bool.and_eq_true, decide_eq_true_eq] at h
  simp only [jsonWs, Bool.or_eq_false_iff, decide_eq_false_iff_not]
  omega

/-- Every rendered value starts with a character that is not JSON whitespace
and closes no bracket (so `skipWs` and the item/member loops cannot eat it). -/
theorem jsonStr_head (v : JVal) :
    ∃ c t, jsonStr v = c :: t ∧ jsonWs c = false ∧ c ≠ ']' ∧ c ≠ '}' ∧ c ≠ ',' := by
  cases v with
  | jnull => exact ⟨'n', _, rfl, by decide, by decide, by decide, by decide⟩
  | jbool b =>
    cases b with
    | true => exact ⟨'t', _, rfl, by decide, by decide, by decide, by decide⟩
    | false => exact ⟨'f', _, rfl, by decide, by decide, by decide, by decide⟩
  | jstr s => exact ⟨'"', _, rfl, by decide, by decide, by decide, by decide⟩
  | jarr l => exact ⟨'[', _, rfl, by decide, by decide, by decide, by decide⟩
  | jobj l => exact ⟨'{', _, rfl, by decide, by decide, by decide, by decide⟩
  | jnum i =>
    obtain ⟨c, t, hct, hc⟩ := decInt_head i
    refine ⟨c, t, by simpa [jsonStr] using hct, ?_, ?_, ?_, ?_⟩
    all_goals rcases hc with rfl | hdig
    · decide
    · exact isDig_not_ws c hdig
    · decide
    · exact isDig_ne c ']' hdig (by decide)
    · decide
    · exact isDig_ne c '}' hdig (by decide)
    · decide
    · exact isDig_ne c ',' hdig (by decide)

theorem skipWs_cons (c : Char) (l : List Char) (h : jsonWs c = false) :
    skipWs (c :: l) = c :: l := by
  simp [skipWs, List.dropWhile_cons, h]

theorem skipWs_jsonStr (v : JVal) (x : List Char) :
    skipWs (jsonStr v ++ x) = jsonStr v ++ x := by
  obtain ⟨c, t, hct, hws, _, _, _⟩ := jsonStr_head v
  rw [hct, List.cons_append, skipWs_cons c _ hws]

theorem jsonStr_ne_nil (v : JVal) : jsonStr v ≠ [] := by
  obtain ⟨c, t, hct, _⟩ := jsonStr_head v
  simp [hct]

/- ===================== parser branch lemmas ===================== -/

theorem parseVal_nullLit (f : Nat) (r : List Char) :
    parseVal (f + 1) ('n' :: 'u' :: 'l' :: 'l' :: r) = some (.jnull, r) := rfl

theorem parseVal_trueLit (f : Nat) (r : List Char) :
    parseVal (f + 1) ('t' :: 'r' :: 'u' :: 'e' :: r) = some (.jbool true, r) := rfl

theorem parseVal_falseLit (f : Nat) (r : List Char) :
    parseVal (f + 1) ('f' :: 'a' :: 'l' :: 's' :: 'e' :: r) = some (.jbool false, r) := rfl

theorem parseVal_quote (f : Nat) (r : List Char) :
    parseVal (f + 1) ('"' :: r) = (parseJStr r).map fun p => (JVal.jstr p.1, p.2) := rfl

theorem parseVal_sqBracket (f : Nat) (r : List Char) :
    parseVal (f + 1) ('[' :: r) =
      (match skipWs r with
      | ']' :: t => some (JVal.jarr [], t)
      | t => (parseItems f t).map fun (p : List JVal × List Char) => (JVal.jarr p.1, p.2)) := rfl

theorem parseVal_brace (f : Nat) (r : List Char) :
    parseVal (f + 1) ('{' :: r) =
      (match skipWs r with
      | '}' :: t => some (JVal.jobj [], t)
      | t => (parseFields f t).map fun (p : List (List Char × JVal) × List Char) => (JVal.jobj (dedupFields p.1), p.2)) := rfl

set_option maxHeartbeats 1600000 in
theorem parseVal_other (f : Nat) (c : Char) (t : List Char) (hws : jsonWs c = false)
    (h1 : c ≠ 'n') (h2 : c ≠ 't') (h3 : c ≠ 'f') (h4 : c ≠ '"') (h5 : c ≠ '[')
    (h6 : c ≠ '{') :
    parseVal (f + 1) (c :: t) = (parseNum (c :: t)).map fun p => (JVal.jnum p.1, p.2) := by
  show (match skipWs (c :: t) with
    | 'n' :: 'u' :: 'l' :: 'l' :: r => some (JVal.jnull, r)
    | 't' :: 'r' :: 'u' :: 'e' :: r => some (JVal.jbool true, r)
    | 'f' :: 'a' :: 'l' :: 's' :: 'e' :: r => some (JVal.jbool false, r)
    | '"' :: r => (parseJStr r).map fun (p : List Char × List Char) => (JVal.jstr p.1, p.2)
    | '[' :: r =>
      match skipWs r with
      | ']' :: t2 => some (JVal.jarr [], t2)
      | t2 => (parseItems f t2).map fun (p : List JVal × List Char) => (JVal.jarr p.1, p.2)
    | '{' :: r =>
      match skipWs r with
      | '}' :: t2 => some (JVal.jobj [], t2)
      | t2 => (parseFields f t2).map fun (p : List (List Char × JVal) × List Char) => (JVal.jobj (dedupFields p.1), p.2)
    | s1 => (parseNum s1).map fun (p : Int × List Char) => (JVal.jnum p.1, p.2)) = _
  rw [skipWs_cons c t hws]
  split
  · rename_i heq
    exact absurd (List.cons.inj heq).1 h1
  · rename_i heq
    exact absurd (List.cons.inj heq).1 h2
  · rename_i heq
    exact absurd (List.cons.inj heq).1 h3
  · rename_i heq
    exact absurd (List.cons.inj heq).1 h4
  · rename_i heq
    exact absurd (List.cons.inj heq).1 h5
  · rename_i heq
    exact absurd (List.cons.inj heq).1 h6
  · rfl

theorem itemsStr_single (v : JVal) : itemsStr [v] = jsonStr v := rfl

theorem itemsStr_cons2 (v w : JVal) (t : List JVal) :
    itemsStr (v :: w :: t) = jsonStr v ++ ',' :: itemsStr (w :: t) := rfl

theorem fieldsStr_single (k : List Char) (v : JVal) :
    fieldsStr [(k, v)] = quoteStr k ++ ':' :: jsonStr v := rfl

theorem fieldsStr_cons2 (k : List Char) (v : JVal) (f2 : List Char × JVal)
    (t : List (List Char × JVal)) :
    fieldsStr ((k, v) :: f2 :: t) =
      quoteStr k ++ ':' :: (jsonStr v ++ ',' :: fieldsStr (f2 :: t)) := rfl

theorem jsonStr_len_pos (v : JVal) : 0 < (jsonStr v).length := by
  obtain ⟨c, t, hct, _⟩ := jsonStr_head v
  simp [hct]

theorem itemsStr_cons_len_pos (v : JVal) (l : List JVal) :
    0 < (itemsStr (v :: l)).length := by
  cases l with
  | nil => rw [itemsStr_single]; exact jsonStr_len_pos v
  | cons w t =>
    rw [itemsStr_cons2]
    simp only [List.length_append, List.length_cons]
    have := jsonStr_len_pos v
    omega

theorem fieldsStr_cons_len (kv : List Char × JVal) (l : List (List Char × JVal)) :
    0 < (fieldsStr (kv :: l)).length := by
  obtain ⟨k, v⟩ := kv
  cases l with
  | nil =>
    rw [fieldsStr_single]
    simp [quoteStr]
  | cons f2 t =>
    rw [fieldsStr_cons2]
    simp [quoteStr]

theorem numStop_rb (r : List Char) : numStop (']' :: r) = true := rfl
theorem numStop_cb (r : List Char) : numStop ('}' :: r) = true := rfl
theorem numStop_comma (r : List Char) : numStop (',' :: r) = true := rfl

theorem skipWs_quote (l : List Char) : skipWs ('"' :: l) = '"' :: l :=
  skipWs_cons _ _ (by decide)
theorem skipWs_colon (l : List Char) : skipWs (':' :: l) = ':' :: l :=
  skipWs_cons _ _ (by decide)
theorem skipWs_comma (l : List Char) : skipWs (',' :: l) = ',' :: l :=
  skipWs_cons _ _ (by decide)
theorem skipWs_rb (l : List Char) : skipWs (']' :: l) = ']' :: l :=
  skipWs_cons _ _ (by decide)
theorem skipWs_cb (l : List Char) : skipWs ('}' :: l) = '}' :: l :=
  skipWs_cons _ _ (by decide)

theorem skipWs_itemsStr (v : JVal) (l : List JVal) (x : List Char) :
    skipWs (itemsStr (v :: l) ++ x) = itemsStr (v :: l) ++ x := by
  cases l with
  | nil => rw [itemsStr_single]; exact skipWs_jsonStr v x
  | cons w t =>
    rw [itemsStr_cons2, List.append_assoc]
    exact skipWs_jsonStr v _

theorem itemsStr_cons_head (v : JVal) (l : List JVal) :
    ∃ c t2, itemsStr (v :: l) = c :: t2 ∧ c ≠ ']' := by
  obtain ⟨c, t, hct, _, hbr, _, _⟩ := jsonStr_head v
  cases l with
  | nil => exact ⟨c, t, by rw [itemsStr_single, hct], hbr⟩
  | cons w t2 =>
    exact ⟨c, t ++ ',' :: itemsStr (w :: t2), by rw [itemsStr_cons2, hct]; rfl, hbr⟩

theorem fieldsStr_headQuote (kv : List Char × JVal) (l : List (List Char × JVal)) :
    ∃ t2, fieldsStr (kv :: l) = '"' :: t2 := by
  obtain ⟨k, v⟩ := kv
  cases l with
  | nil =>
    exact ⟨(escStr k ++ ['"']) ++ ':' :: jsonStr v, by rw [fieldsStr_single, quoteStr]; rfl⟩
  | cons f2 t =>
    exact ⟨(escStr k ++ ['"']) ++ ':' :: (jsonStr v ++ ',' :: fieldsStr (f2 :: t)),
      by rw [fieldsStr_cons2, quoteStr]; rfl⟩

mutual
theorem rtVal : ∀ (v : JVal) (fuel : Nat) (rest : List Char),
    goodKeys v = true → (jsonStr v).length < fuel → numStop rest = true →
    parseVal fuel (jsonStr v ++ rest) = some (v, rest)
  | .jnull, fuel, rest, _, hf, _ => by
    cases fuel with
    | zero => exact absurd hf (Nat.not_lt_zero _)
    | succ f => exact parseVal_nullLit f rest
  | .jbool true, fuel, rest, _, hf, _ => by
    cases fuel with
    | zero => exact absurd hf (Nat.not_lt_zero _)
    | succ f => exact parseVal_trueLit f rest
  | .jbool false, fuel, rest, _, hf, _ => by
    cases fuel with
    | zero => exact absurd hf (Nat.not_lt_zero _)
    | succ f => exact parseVal_falseLit f rest
  | .jnum i, fuel, rest, _, hf, hr => by
    cases fuel with
    | zero => exact absurd hf (Nat.not_lt_zero _)
    | succ f =>
      obtain ⟨c, t, hct, hc⟩ := decInt_head i
      have harg : jsonStr (.jnum i) ++ rest = c :: (t ++ rest) := by
        show decInt i ++ rest = _
        rw [hct]
        rfl
      have hws : jsonWs c = false := by
        rcases hc with rfl | hdig
        · decide
        · exact isDig_not_ws c hdig
      have hne : c ≠ 'n' ∧ c ≠ 't' ∧ c ≠ 'f' ∧ c ≠ '"' ∧ c ≠ '[' ∧ c ≠ '{' := by
        rcases hc with rfl | hdig
        · refine ⟨by decide, by decide, by decide, by decide, by decide, by decide⟩
        · exact ⟨isDig_ne c 'n' hdig (by decide), isDig_ne c 't' hdig (by decide),
            isDig_ne c 'f' hdig (by decide), isDig_ne c '"' hdig (by decide),
            isDig_ne c '[' hdig (by decide), isDig_ne c '{' hdig (by decide)⟩
      rw [harg, parseVal_other f c (t ++ rest) hws hne.1 hne.2.1 hne.2.2.1 hne.2.2.2.1
        hne.2.2.2.2.1 hne.2.2.2.2.2,
        show c :: (t ++ rest) = decInt i ++ rest from by rw [hct]; rfl,
        parseNum_dec i rest hr]
      rfl
  | .jstr s, fuel, rest, _, hf, _ => by
    cases fuel with
    | zero => exact absurd hf (Nat.not_lt_zero _)
    | succ f =>
      have harg : jsonStr (.jstr s) ++ rest = '"' :: (escStr s ++ ('"' :: rest)) := by
        show quoteStr s ++ rest = _
        rw [quoteStr]
        simp [List.append_assoc]
      rw [harg, parseVal_quote, parseJStr_quote]
      rfl
  | .jarr [], fuel, rest, _, hf, _ => by
    cases fuel with
    | zero => exact absurd hf (Nat.not_lt_zero _)
    | succ f =>
      show parseVal (f + 1) ('[' :: (itemsStr [] ++ [']']) ++ rest) = _
      rw [show ('[' :: (itemsStr [] ++ [']']) ++ rest) = '[' :: ']' :: rest from rfl,
        parseVal_sqBracket, skipWs_rb]
      rfl
  | .jarr (v :: l), fuel, rest, hg, hf, _ => by
    cases fuel with
    | zero => exact absurd hf (Nat.not_lt_zero _)
    | succ f =>
      have hglist : goodKeysItems (v :: l) = true := hg
      have hlen : (itemsStr (v :: l)).length + 1 < f := by
        have : (jsonStr (.jarr (v :: l))).length = (itemsStr (v :: l)).length + 2 := by
          show ('[' :: (itemsStr (v :: l) ++ [']'])).length = _
          simp
        omega
      have harg : jsonStr (.jarr (v :: l)) ++ rest =
          '[' :: (itemsStr (v :: l) ++ (']' :: rest)) := by
        show '[' :: (itemsStr (v :: l) ++ [']']) ++ rest = _
        simp [List.append_assoc]
      have key := rtItems v l f rest hglist hlen
      rw [harg, parseVal_sqBracket, skipWs_itemsStr v l (']' :: rest)]
      obtain ⟨c, t2, hct2, hcbr⟩ := itemsStr_cons_head v l
      split
      · rename_i t3 heq
        rw [hct2] at heq
        exact absurd (List.cons.inj heq).1 hcbr
      · rw [key]
        rfl
  | .jobj [], fuel, rest, _, hf, _ => by
    cases fuel with
    | zero => exact absurd hf (Nat.not_lt_zero _)
    | succ f =>
      show parseVal (f + 1) ('{' :: (fieldsStr [] ++ ['}']) ++ rest) = _
      rw [show ('{' :: (fieldsStr [] ++ ['}']) ++ rest) = '{' :: '}' :: rest from rfl,
        parseVal_brace, skipWs_cb]
      rfl
  | .jobj (kv :: l), fuel, rest, hg, hf, _ => by
    cases fuel with
    | zero => exact absurd hf (Nat.not_lt_zero _)
    | succ f =>
      have hg2 : distinctKeys (kv :: l) = true ∧ goodKeysFields (kv :: l) = true := by
        have : goodKeys (.jobj (kv :: l)) =
            (distinctKeys (kv :: l) && goodKeysFields (kv :: l)) := rfl
        rw [this] at hg
        exact And.intro (Bool.and_eq_true .. ▸ hg).1 (Bool.and_eq_true .. ▸ hg).2
      have hlen : (fieldsStr (kv :: l)).length + 1 < f := by
        have : (jsonStr (.jobj (kv :: l))).length = (fieldsStr (kv :: l)).length + 2 := by
          show ('{' :: (fieldsStr (kv :: l) ++ ['}'])).length = _
          simp
        omega
      have harg : jsonStr (.jobj (kv :: l)) ++ rest =
          '{' :: (fieldsStr (kv :: l) ++ ('}' :: rest)) := by
        show '{' :: (fieldsStr (kv :: l) ++ ['}']) ++ rest = _
        simp [List.append_assoc]
      have key := rtFields kv l f rest hg2.2 hlen
      obtain ⟨y2, hy⟩ := fieldsStr_headQuote kv l
      rw [harg, parseVal_brace,
        show skipWs (fieldsStr (kv :: l) ++ ('}' :: rest)) =
          fieldsStr (kv :: l) ++ ('}' :: rest) from by rw [hy]; exact skipWs_quote _]
      split
      · rename_i t3 heq
        rw [hy] at heq
        exact absurd (List.cons.inj heq).1 (by decide)
      · rw [key]
        simp only [Option.map_some']
        rw [dedupFields_distinct (kv :: l) hg2.1]
termination_by v _ _ _ _ _ => sizeOf v

theorem rtItems : ∀ (v : JVal) (l : List JVal) (fuel : Nat) (rest : List Char),
    goodKeysItems (v :: l) = true → (itemsStr (v :: l)).length + 1 < fuel →
    parseItems fuel (itemsStr (v :: l) ++ ']' :: rest) = some (v :: l, rest)
  | v, [], fuel, rest, hg, hf => by
    cases fuel with
    | zero => exact absurd hf (Nat.not_lt_zero _)
    | succ f =>
      have hgv : goodKeys v = true := by
        have : goodKeysItems [v] = (goodKeys v && goodKeysItems []) := rfl
        rw [this] at hg
        exact (Bool.and_eq_true .. ▸ hg).1
      have hfv : (jsonStr v).length < f := by
        rw [itemsStr_single] at hf
        omega
      have hv := rtVal v f (']' :: rest) hgv hfv (numStop_rb rest)
      rw [itemsStr_single]
      simp only [parseItems, hv, skipWs_rb]
  | v, w :: t, fuel, rest, hg, hf => by
    cases fuel with
    | zero => exact absurd hf (Nat.not_lt_zero _)
    | succ f =>
      have hg2 : goodKeys v = true ∧ goodKeysItems (w :: t) = true := by
        have : goodKeysItems (v :: w :: t) = (goodKeys v && goodKeysItems (w :: t)) := rfl
        rw [this] at hg
        exact And.intro (Bool.and_eq_true .. ▸ hg).1 (Bool.and_eq_true .. ▸ hg).2
      have hlens : (jsonStr v).length < f ∧ (itemsStr (w :: t)).length + 1 < f := by
        rw [itemsStr_cons2] at hf
        simp only [List.length_append, List.length_cons] at hf
        have p1 := jsonStr_len_pos v
        have p2 := itemsStr_cons_len_pos w t
        omega
      have hv := rtVal v f (',' :: (itemsStr (w :: t) ++ ']' :: rest)) hg2.1 hlens.1
        (numStop_comma _)
      have key := rtItems w t f rest hg2.2 hlens.2
      have harg : itemsStr (v :: w :: t) ++ ']' :: rest =
          jsonStr v ++ (',' :: (itemsStr (w :: t) ++ ']' :: rest)) := by
        rw [itemsStr_cons2]
        simp [List.append_assoc]
      rw [harg]
      simp only [parseItems, hv, skipWs_comma, key]
termination_by v l _ _ _ _ => sizeOf v + sizeOf l

theorem rtFields : ∀ (kv : List Char × JVal) (l : List (List Char × JVal)) (fuel : Nat)
    (rest : List Char),
    goodKeysFields (kv :: l) = true → (fieldsStr (kv :: l)).length + 1 < fuel →
    parseFields fuel (fieldsStr (kv :: l) ++ '}' :: rest) = some (kv :: l, rest)
  | (k, v), [], fuel, rest, hg, hf => by
    cases fuel with
    | zero => exact absurd hf (Nat.not_lt_zero _)
    | succ f =>
      have hgv : goodKeys v = true := by
        have : goodKeysFields [(k, v)] = (goodKeys v && goodKeysFields []) := rfl
        rw [this] at hg
        exact (Bool.and_eq_true .. ▸ hg).1
      have hfv : (jsonStr v).length < f := by
        rw [fieldsStr_single] at hf
        simp only [List.length_append, List.length_cons, quoteStr] at hf
        omega
      have hv := rtVal v f ('}' :: rest) hgv hfv (numStop_cb rest)
      have harg : fieldsStr [(k, v)] ++ '}' :: rest =
          '"' :: (escStr k ++ ('"' :: (':' :: (jsonStr v ++ '}' :: rest)))) := by
        rw [fieldsStr_single, quoteStr]
        simp [List.append_assoc]
      rw [harg]
      simp only [parseFields, skipWs_quote, parseJStr_quote, skipWs_colon, hv, skipWs_cb]
  | (k, v), f2 :: t, fuel, rest, hg, hf => by
    cases fuel with
    | zero => exact absurd hf (Nat.not_lt_zero _)
    | succ f =>
      have hg2 : goodKeys v = true ∧ goodKeysFields (f2 :: t) = true := by
        have : goodKeysFields ((k, v) :: f2 :: t) =
            (goodKeys v && goodKeysFields (f2 :: t)) := rfl
        rw [this] at hg
        exact And.intro (Bool.and_eq_true .. ▸ hg).1 (Bool.and_eq_true .. ▸ hg).2
      have hlens : (jsonStr v).length < f ∧ (fieldsStr (f2 :: t)).length + 1 < f := by
        rw [fieldsStr_cons2] at hf
        simp only [List.length_append, List.length_cons, quoteStr] at hf
        have p1 := jsonStr_len_pos v
        have p2 := fieldsStr_cons_len f2 t
        omega
      have hv := rtVal v f (',' :: (fieldsStr (f2 :: t) ++ '}' :: rest)) hg2.1 hlens.1
        (numStop_comma _)
      have key := rtFields f2 t f rest hg2.2 hlens.2
      have harg : fieldsStr ((k, v) :: f2 :: t) ++ '}' :: rest =
          '"' :: (escStr k ++ ('"' :: (':' ::
            (jsonStr v ++ (',' :: (fieldsStr (f2 :: t) ++ '}' :: rest)))))) := by
        rw [fieldsStr_cons2, quoteStr]
        simp [List.append_assoc]
      rw [harg]
      simp only [parseFields, skipWs_quote, parseJStr_quote, skipWs_colon, hv,
        skipWs_comma, key]
termination_by kv l _ _ _ _ => sizeOf kv + sizeOf l
end

/-- Parsing inverts stringification (for well-formed JS values: no duplicate
object keys anywhere). -/
theorem jsonParse_jsonStr (v : JVal) (hg : goodKeys v = true) :
    jsonParse (jsonStr v) = some v := by
  have h := rtVal v ((jsonStr v).length + 1) [] hg (by omega) rfl
  rw [List.append_nil] at h
  rw [jsonParse, h]
  rfl

/- ===================== ASCII byte lemmas ===================== -/

theorem utf8Char_ascii (c : Char) (h : c.toNat < 0x80) : utf8Char c = [c.toNat] := by
  simp [utf8Char, h]

theorem utf8Str_ascii (s : List Char) (h : ∀ c ∈ s, c.toNat < 0x80) :
    utf8Str s = s.map Char.toNat := by
  induction s with
  | nil => rfl
  | cons c t ih =>
    show utf8Char c ++ utf8Str t = _
    rw [utf8Char_ascii c (h c (by simp)), ih fun x hx => h x (by simp [hx])]
    rfl

theorem byteLength_ascii (s : List Char) (h : ∀ c ∈ s, c.toNat < 0x80) :
    byteLength s = s.length := by
  rw [byteLength, utf8Str_ascii s h, List.length_map]

theorem utf16Len_ascii (s : List Char) (h : ∀ c ∈ s, c.toNat < 0x80) :
    utf16Len s = s.length := by
  induction s with
  | nil => rfl
  | cons c t ih =>
    show (if c.toNat < 0x10000 then 1 else 2) + utf16Len t = t.length + 1
    rw [if_pos (by have := h c (by simp); omega), ih fun x hx => h x (by simp [hx])]
    omega

theorem utf8Decode_ascii (bs : List Nat) (h : ∀ b ∈ bs, b < 0x80) :
    utf8Decode bs = bs.map Char.ofNat := by
  show u8Run u8Init bs = _
  induction bs with
  | nil => rfl
  | cons b t ih =>
    show (u8Step u8Init b).2 ++ u8Run (u8Step u8Init b).1 t = _
    have hb : b < 0x80 := h b (by simp)
    have hstep : u8Step u8Init b = (u8Init, [Char.ofNat b]) := by
      show u8Lead b = _
      rw [u8Lead, if_pos hb]
    rw [hstep, ih fun x hx => h x (by simp [hx])]
    rfl

theorem utf8Decode_map_toNat (s : List Char) (h : ∀ c ∈ s, c.toNat < 0x80) :
    utf8Decode (s.map Char.toNat) = s := by
  rw [utf8Decode_ascii _ (by intro b hb; obtain ⟨c, hc, rfl⟩ := List.mem_map.mp hb; exact h c hc)]
  rw [List.map_map]
  have : (Char.ofNat ∘ Char.toNat) = id := by
    funext c
    exact Char.ofNat_toNat c
  rw [this, List.map_id]

/- ===================== write buffer lemmas ===================== -/

theorem byteLength_cons (c : Char) (s : List Char) :
    byteLength (c :: s) = (utf8Char c).length + byteLength s := by
  show (utf8Char c ++ utf8Str s).length = _
  simp [byteLength]

theorem utf8Fit_all (s : List Char) : ∀ room : Nat, byteLength s ≤ room →
    utf8Fit s room = utf8Str s := by
  induction s with
  | nil => intro room _; rfl
  | cons c t ih =>
    intro room h
    rw [byteLength_cons] at h
    have h1 : (utf8Char c).length ≤ room := by omega
    show (if (utf8Char c).length ≤ room then
        utf8Char c ++ utf8Fit t (room - (utf8Char c).length) else []) = _
    rw [if_pos h1, ih (room - (utf8Char c).length) (by omega)]
    rfl

theorem utf8Fit_len_le (s : List Char) : ∀ room : Nat, (utf8Fit s room).length ≤ room := by
  induction s with
  | nil => intro room; simp [utf8Fit]
  | cons c t ih =>
    intro room
    show (if (utf8Char c).length ≤ room then
        utf8Char c ++ utf8Fit t (room - (utf8Char c).length) else []).length ≤ room
    split
    · rename_i h
      simp only [List.length_append]
      have := ih (room - (utf8Char c).length)
      omega
    · simp

theorem encodeBuffer_len (s : List Char) : (encodeBuffer s).length = padLen s := by
  show (utf8Fit s (padLen s) ++ List.replicate (padLen s - (utf8Fit s (padLen s)).length) 0).length = _
  have := utf8Fit_len_le s (padLen s)
  simp only [List.length_append, List.length_replicate]
  omega

theorem padLen_mod4 (s : List Char) : padLen s % 4 = 0 := by
  show (utf16Len s + 3) / 4 * 4 % 4 = 0
  omega

theorem le_padLen (s : List Char) : utf16Len s ≤ padLen s := by
  show _ ≤ (utf16Len s + 3) / 4 * 4
  omega

theorem encodeBuffer_ascii (s : List Char) (h : ∀ c ∈ s, c.toNat < 0x80) :
    encodeBuffer s = s.map Char.toNat ++ List.replicate (padLen s - s.length) 0 := by
  have hle : byteLength s ≤ padLen s := by
    rw [byteLength_ascii s h]
    have := le_padLen s
    rw [utf16Len_ascii s h] at this
    exact this
  show utf8Fit s (padLen s) ++ List.replicate (padLen s - (utf8Fit s (padLen s)).length) 0 = _
  rw [utf8Fit_all s (padLen s) hle, utf8Str_ascii s h, List.length_map]

/- ===================== characters stringify can emit ===================== -/

theorem hexCh_ge32 (v : Nat) (h : v < 16) : 32 ≤ (hexCh v).toNat := by
  interval_cases v <;> decide

theorem escChar_ge32 (c : Char) : ∀ x ∈ escChar c, 32 ≤ x.toNat := by
  intro x hx
  rw [escChar] at hx
  split at hx
  case isTrue =>
    simp only [List.mem_cons, List.not_mem_nil, or_false] at hx
    rcases hx with rfl | rfl <;> decide
  all_goals split at hx
  case isTrue =>
    simp only [List.mem_cons, List.not_mem_nil, or_false] at hx
    rcases hx with rfl | rfl <;> decide
  all_goals split at hx
  case isTrue =>
    simp only [List.mem_cons, List.not_mem_nil, or_false] at hx
    rcases hx with rfl | rfl <;> decide
  all_goals split at hx
  case isTrue =>
    simp only [List.mem_cons, List.not_mem_nil, or_false] at hx
    rcases hx with rfl | rfl <;> decide
  all_goals split at hx
  case isTrue =>
    simp only [List.mem_cons, List.not_mem_nil, or_false] at hx
    rcases hx with rfl | rfl <;> decide
  all_goals split at hx
  case isTrue =>
    simp only [List.mem_cons, List.not_mem_nil, or_false] at hx
    rcases hx with rfl | rfl <;> decide
  all_goals split at hx
  case isTrue =>
    simp only [List.mem_cons, List.not_mem_nil, or_false] at hx
    rcases hx with rfl | rfl <;> decide
  all_goals split at hx
  case isTrue =>
    rename_i hlt
    simp only [List.mem_cons, List.not_mem_nil, or_false] at hx
    rcases hx with rfl | rfl | rfl | rfl | rfl | rfl
    · decide
    · decide
    · decide
    · decide
    · exact hexCh_ge32 (c.toNat / 16) (by omega)
    · exact hexCh_ge32 (c.toNat % 16) (by omega)
  case isFalse =>
    rename_i h1 h2 h3 h4 h5 h6 h7 h8
    simp only [List.mem_cons, List.not_mem_nil, or_false] at hx
    subst hx
    omega

theorem quoteStr_ge32 (k : List Char) :
    ∀ x ∈ quoteStr k, 32 ≤ x.toNat := by
  intro x hx
  rw [quoteStr] at hx
  rcases List.mem_cons.mp hx with rfl | hx
  · decide
  rcases List.mem_append.mp hx with hx | hx
  · obtain ⟨c, _, hc2⟩ := List.mem_flatMap.mp hx
    exact escChar_ge32 c x hc2
  · simp only [List.mem_singleton] at hx
    subst hx
    decide

theorem decInt_ge32 (i : Int) : ∀ x ∈ decInt i, 32 ≤ x.toNat := by
  intro x hx
  rw [decInt] at hx
  rcases List.mem_append.mp hx with hx | hx
  · split at hx
    · simp only [List.mem_singleton] at hx
      subst hx
      decide
    · simp at hx
  · rw [decNat] at hx
    split at hx
    · simp only [List.mem_singleton] at hx
      subst hx
      decide
    · obtain ⟨d, hd, rfl⟩ := List.mem_map.mp hx
      have h10 := natDigs_lt10 i.natAbs d hd
      rw [digCh_toNat d h10]
      omega

mutual
theorem jsonStr_ge32 : ∀ (v : JVal) (x : Char), x ∈ jsonStr v → 32 ≤ x.toNat
  | .jnull, x, hx => by
    simp only [jsonStr, List.mem_cons, List.not_mem_nil, or_false] at hx
    rcases hx with rfl | rfl | rfl | rfl <;> decide
  | .jbool true, x, hx => by
    simp only [jsonStr, List.mem_cons, List.not_mem_nil, or_false] at hx
    rcases hx with rfl | rfl | rfl | rfl <;> decide
  | .jbool false, x, hx => by
    simp only [jsonStr, List.mem_cons, List.not_mem_nil, or_false] at hx
    rcases hx with rfl | rfl | rfl | rfl | rfl <;> decide
  | .jnum i, x, hx => decInt_ge32 i x hx
  | .jstr s, x, hx => quoteStr_ge32 s x hx
  | .jarr l, x, hx => by
    rcases List.mem_cons.mp hx with rfl | hx
    · decide
    rcases List.mem_append.mp hx with hx | hx
    · exact itemsStr_ge32 l x hx
    · simp only [List.mem_singleton] at hx
      subst hx
      decide
  | .jobj l, x, hx => by
    rcases List.mem_cons.mp hx with rfl | hx
    · decide
    rcases List.mem_append.mp hx with hx | hx
    · exact fieldsStr_ge32 l x hx
    · simp only [List.mem_singleton] at hx
      subst hx
      decide
theorem itemsStr_ge32 : ∀ (l : List JVal) (x : Char), x ∈ itemsStr l → 32 ≤ x.toNat
  | [], x, hx => by simp [itemsStr] at hx
  | [v], x, hx => jsonStr_ge32 v x hx
  | v :: w :: t, x, hx => by
    rw [itemsStr_cons2] at hx
    rcases List.mem_append.mp hx with hx | hx
    · exact jsonStr_ge32 v x hx
    · rcases List.mem_cons.mp hx with rfl | hx
      · decide
      · exact itemsStr_ge32 (w :: t) x hx
theorem fieldsStr_ge32 : ∀ (l : List (List Char × JVal)) (x : Char),
    x ∈ fieldsStr l → 32 ≤ x.toNat
  | [], x, hx => by simp [fieldsStr] at hx
  | [(k, v)], x, hx => by
    rw [fieldsStr_single] at hx
    rcases List.mem_append.mp hx with hx | hx
    · exact quoteStr_ge32 k x hx
    · rcases List.mem_cons.mp hx with rfl | hx
      · decide
      · exact jsonStr_ge32 v x hx
  | (k, v) :: f2 :: t, x, hx => by
    rw [fieldsStr_cons2] at hx
    rcases List.mem_append.mp hx with hx | hx
    · exact quoteStr_ge32 k x hx
    · rcases List.mem_cons.mp hx with rfl | hx
      · decide
      rcases List.mem_append.mp hx with hx | hx
      · exact jsonStr_ge32 v x hx
      · rcases List.mem_cons.mp hx with rfl | hx
        · decide
        · exact fieldsStr_ge32 (f2 :: t) x hx
end

theorem jobjStr_ends (l : List (List Char × JVal)) :
    (jsonStr (.jobj l)).head? = some '{' ∧ (jsonStr (.jobj l)).getLast? = some '}' := by
  constructor
  · rfl
  · show ('{' :: (fieldsStr l ++ ['}'])).getLast? = some '}'
    rw [show '{' :: (fieldsStr l ++ ['}']) = ('{' :: fieldsStr l) ++ ['}'] from rfl,
      List.getLast?_concat]

/- ===================== trim identity ===================== -/

theorem jsTrim_eq_self (s : List Char) (h1 : ∀ c, s.head? = some c → isJsWs c = false)
    (h2 : ∀ c, s.getLast? = some c → isJsWs c = false) : jsTrim s = s := by
  cases s with
  | nil => rfl
  | cons c t =>
    have hd : (c :: t).dropWhile isJsWs = c :: t := by
      rw [List.dropWhile_cons, if_neg]
      rw [h1 c rfl]
      simp
    rw [jsTrim, hd]
    cases hr : (c :: t).reverse with
    | nil => exact absurd hr (by simp)
    | cons d r2 =>
      have hlast : (c :: t).getLast? = some d := by
        rw [← List.head?_reverse, hr]
        rfl
      have hd2 : (d :: r2).dropWhile isJsWs = d :: r2 := by
        rw [List.dropWhile_cons, if_neg]
        rw [h2 d hlast]
        simp
      have hrr : (d :: r2).reverse = c :: t := by
        rw [← hr, List.reverse_reverse]
      rw [hd2, hrr]

/- ===================== read-loop behaviour ===================== -/

theorem readLoop_succ_some (rd : Nat → Option (List Nat)) (f i : Nat)
    (acc trace b : List Nat) (hb : rd (4 + i) = some b) :
    readLoop rd (f + 1) i acc trace =
      if (stripNulls (utf8Decode b)).length < 4 then
        (acc ++ utf8Str (stripNulls (utf8Decode b)), .finished, trace ++ [4 + i])
      else readLoop rd f (i + 1) (acc ++ utf8Str (stripNulls (utf8Decode b)))
        (trace ++ [4 + i]) := by
  show (match rd (4 + i) with
    | none => (acc, LoopStat.finished, trace ++ [4 + i])
    | some chunk =>
      if (stripNulls (utf8Decode chunk)).length < 4 then
        (acc ++ utf8Str (stripNulls (utf8Decode chunk)), LoopStat.finished, trace ++ [4 + i])
      else readLoop rd f (i + 1) (acc ++ utf8Str (stripNulls (utf8Decode chunk)))
        (trace ++ [4 + i])) = _
  rw [hb]

theorem readLoop_succ_none (rd : Nat → Option (List Nat)) (f i : Nat)
    (acc trace : List Nat) (hb : rd (4 + i) = none) :
    readLoop rd (f + 1) i acc trace = (acc, .finished, trace ++ [4 + i]) := by
  show (match rd (4 + i) with
    | none => (acc, LoopStat.finished, trace ++ [4 + i])
    | some chunk =>
      if (stripNulls (utf8Decode chunk)).length < 4 then
        (acc ++ utf8Str (stripNulls (utf8Decode chunk)), LoopStat.finished, trace ++ [4 + i])
      else readLoop rd f (i + 1) (acc ++ utf8Str (stripNulls (utf8Decode chunk)))
        (trace ++ [4 + i])) = _
  rw [hb]

theorem readLoop_shortStop : ∀ (k : Nat) (rd : Nat → Option (List Nat)) (start : Nat)
    (acc trace : List Nat) (fuel : Nat),
    (∀ j, j < k → ∃ b, rd (4 + (start + j)) = some b ∧
      4 ≤ (stripNulls (utf8Decode b)).length) →
    (∃ bk, rd (4 + (start + k)) = some bk ∧ (stripNulls (utf8Decode bk)).length < 4) →
    k < fuel →
    readLoop rd fuel start acc trace =
      (acc ++ loopBuf rd start (k + 1), .finished, trace ++ loopIdx start (k + 1)) := by
  intro k
  induction k with
  | zero =>
    intro rd start acc trace fuel _ hshort hfuel
    obtain ⟨bk, hbk, hlen⟩ := hshort
    rw [Nat.add_zero] at hbk
    match fuel, hfuel with
    | f + 1, _ =>
      rw [readLoop_succ_some rd f start acc trace bk hbk, if_pos hlen]
      show _ = (acc ++ (utf8Str (stripNulls (utf8Decode ((rd (4 + start)).getD []))) ++
        loopBuf rd (start + 1) 0), _, trace ++ [4 + start])
      rw [hbk]
      simp [loopBuf]
  | succ k ih =>
    intro rd start acc trace fuel hfull hshort hfuel
    have h0 := hfull 0 (by omega)
    rw [Nat.add_zero] at h0
    obtain ⟨b0, hb0, hlen0⟩ := h0
    match fuel, hfuel with
    | f + 1, _ =>
      rw [readLoop_succ_some rd f start acc trace b0 hb0, if_neg (by omega)]
      rw [ih rd (start + 1) _ _ f
        (fun j hj => by
          have := hfull (j + 1) (by omega)
          rw [show start + (j + 1) = start + 1 + j from by omega] at this
          exact this)
        (by
          obtain ⟨bk, hbk, hl⟩ := hshort
          rw [show start + (k + 1) = start + 1 + k from by omega] at hbk
          exact ⟨bk, hbk, hl⟩)
        (by omega)]
      rw [show loopBuf rd start (k + 1 + 1) =
        utf8Str (stripNulls (utf8Decode ((rd (4 + start)).getD []))) ++
          loopBuf rd (start + 1) (k + 1) from rfl]
      rw [hb0]
      show _ = (acc ++ (utf8Str (stripNulls (utf8Decode b0)) ++ loopBuf rd (start + 1) (k + 1)),
        LoopStat.finished, trace ++ ((4 + start) :: loopIdx (start + 1) (k + 1)))
      simp [List.append_assoc]

theorem readLoop_failStop : ∀ (k : Nat) (rd : Nat → Option (List Nat)) (start : Nat)
    (acc trace : List Nat) (fuel : Nat),
    (∀ j, j < k → ∃ b, rd (4 + (start + j)) = some b ∧
      4 ≤ (stripNulls (utf8Decode b)).length) →
    rd (4 + (start + k)) = none →
    k < fuel →
    readLoop rd fuel start acc trace =
      (acc ++ loopBuf rd start k, .finished, trace ++ loopIdx start (k + 1)) := by
  intro k
  induction k with
  | zero =>
    intro rd start acc trace fuel _ hfail hfuel
    rw [Nat.add_zero] at hfail
    match fuel, hfuel with
    | f + 1, _ =>
      rw [readLoop_succ_none rd f start acc trace hfail]
      rw [show loopBuf rd start 0 = [] from rfl, List.append_nil]
      rfl
  | succ k ih =>
    intro rd start acc trace fuel hfull hfail hfuel
    have h0 := hfull 0 (by omega)
    rw [Nat.add_zero] at h0
    obtain ⟨b0, hb0, hlen0⟩ := h0
    match fuel, hfuel with
    | f + 1, _ =>
      rw [readLoop_succ_some rd f start acc trace b0 hb0, if_neg (by omega)]
      rw [ih rd (start + 1) _ _ f
        (fun j hj => by
          have := hfull (j + 1) (by omega)
          rw [show start + (j + 1) = start + 1 + j from by omega] at this
          exact this)
        (by rw [show start + (k + 1) = start + 1 + k from by omega] at hfail; exact hfail)
        (by omega)]
      rw [show loopBuf rd start (k + 1) =
        utf8Str (stripNulls (utf8Decode ((rd (4 + start)).getD []))) ++
          loopBuf rd (start + 1) k from rfl]
      rw [hb0]
      show _ = (acc ++ (utf8Str (stripNulls (utf8Decode b0)) ++ loopBuf rd (start + 1) k),
        LoopStat.finished, trace ++ ((4 + start) :: loopIdx (start + 1) (k + 1)))
      simp [List.append_assoc]

theorem readLoop_noStop : ∀ (fuel : Nat) (rd : Nat → Option (List Nat)) (start : Nat)
    (acc trace : List Nat),
    (∀ j, ∃ b, rd (4 + j) = some b ∧ 4 ≤ (stripNulls (utf8Decode b)).length) →
    (readLoop rd fuel start acc trace).2.1 = .outOfFuel := by
  intro fuel
  induction fuel with
  | zero => intro rd start acc trace _; rfl
  | succ f ih =>
    intro rd start acc trace hall
    obtain ⟨b, hb, hlen⟩ := hall start
    rw [readLoop_succ_some rd f start acc trace b hb, if_neg (by omega)]
    exact ih rd (start + 1) _ _ hall

/- ===================== the written medium, block by block ===================== -/

theorem applyWrites_append_one (ws : List (Nat × List Nat)) (w : Nat × List Nat)
    (m : Nat → List Nat) (a : Nat) :
    applyWrites (ws ++ [w]) m a = if a = w.1 then w.2 else applyWrites ws m a := by
  simp [applyWrites, List.foldl_append]

theorem applyWrites_chunks (g : Nat → List Nat) : ∀ (n : Nat) (m : Nat → List Nat) (a : Nat),
    applyWrites ((List.range n).map fun i => (4 + i, g i)) m a =
      if 4 ≤ a ∧ a < 4 + n then g (a - 4) else m a := by
  intro n
  induction n with
  | zero =>
    intro m a
    rw [if_neg (by omega)]
    rfl
  | succ n ih =>
    intro m a
    rw [List.range_succ, List.map_append, List.map_cons, List.map_nil,
      applyWrites_append_one, ih]
    by_cases ha : a = 4 + n
    · rw [if_pos ha, if_pos (by omega)]
      subst ha
      simp
    · rw [if_neg ha]
      by_cases hin : 4 ≤ a ∧ a < 4 + n
      · rw [if_pos hin, if_pos (by omega)]
      · rw [if_neg hin, if_neg (by omega)]

/-- Taking one block out of a zero-padded buffer is `padTo4` of the byte
window, provided the buffer covers the block. -/
theorem slice_padded (bytes : List Nat) (pad j : Nat)
    (hL : 4 * j + 4 ≤ bytes.length + pad) :
    ((bytes ++ List.replicate pad 0).drop (4 * j)).take 4 = padTo4 (bytes.drop (4 * j)) := by
  rw [List.drop_append_eq_append_drop, List.drop_replicate,
    List.take_append_eq_append_take, List.take_replicate, padTo4]
  have hD : (bytes.drop (4 * j)).length = bytes.length - 4 * j := by simp
  have hT : ((bytes.drop (4 * j)).take 4).length = min 4 (bytes.length - 4 * j) := by simp
  congr 2
  omega

theorem padTo4_nil : padTo4 [] = [0, 0, 0, 0] := rfl

theorem stripNulls_no_nul (s : List Char) (h : ∀ c ∈ s, c.toNat ≠ 0) :
    stripNulls s = s :=
  List.filter_eq_self.mpr fun c hc => by simp [h c hc]

theorem stripNulls_append (s t : List Char) :
    stripNulls (s ++ t) = stripNulls s ++ stripNulls t := List.filter_append ..

theorem stripNulls_replicate_nul (k : Nat) :
    stripNulls (List.replicate k (Char.ofNat 0)) = [] := by
  induction k with
  | zero => rfl
  | succ n ih => simp [List.replicate_succ, stripNulls, ih]

/-- Decoding and null-stripping one stored block of a printable-ASCII window
`w` (fewer than 4 chars, zero-padded) gives `w` back. -/
theorem block_text_short (w : List Char) (hw : ∀ c ∈ w, 32 ≤ c.toNat ∧ c.toNat < 0x80)
    (hlen : w.length ≤ 4) :
    stripNulls (utf8Decode (padTo4 (w.map Char.toNat))) = w := by
  have htake : (w.map Char.toNat).take 4 = w.map Char.toNat :=
    List.take_of_length_le (by simp [hlen])
  rw [padTo4, htake]
  rw [utf8Decode_ascii _ (by
    intro b hb
    rcases List.mem_append.mp hb with hb | hb
    · obtain ⟨c, hc, rfl⟩ := List.mem_map.mp hb
      exact (hw c hc).2
    · rw [List.eq_of_mem_replicate hb]
      omega)]
  rw [List.map_append, List.map_map,
    show (Char.ofNat ∘ Char.toNat) = id from funext fun c => Char.ofNat_toNat c,
    List.map_id, List.map_replicate, stripNulls_append,
    stripNulls_no_nul w (fun c hc => by have := (hw c hc).1; omega),
    show Char.ofNat 0 = Char.ofNat 0 from rfl, stripNulls_replicate_nul, List.append_nil]

/-- Decoding and null-stripping one full stored block (4 printable-ASCII
chars) gives the 4 chars back. -/
theorem block_text_full (w : List Char) (hw : ∀ c ∈ w, 32 ≤ c.toNat ∧ c.toNat < 0x80)
    (hlen : w.length = 4) :
    stripNulls (utf8Decode (padTo4 (w.map Char.toNat))) = w := by
  have htake : (w.map Char.toNat).take 4 = w.map Char.toNat :=
    List.take_of_length_le (by simp [hlen])
  rw [padTo4, htake]
  rw [show 4 - (w.map Char.toNat).length = 0 from by simp [hlen], List.replicate_zero,
    List.append_nil, utf8Decode_map_toNat w (fun c hc => (hw c hc).2),
    stripNulls_no_nul w (fun c hc => by have := (hw c hc).1; omega)]

/-- The read loop over a medium holding the zero-padded blocks of a
printable-ASCII string `d` (from loop index `start` on): it terminates,
accumulates exactly `d`'s bytes, and reads `d.length / 4 + 1` blocks. -/
theorem readLoop_ascii (rd : Nat → Option (List Nat)) :
    ∀ (N : Nat) (d : List Char) (start : Nat) (acc trace : List Nat) (fuel : Nat),
    d.length ≤ N →
    (∀ c ∈ d, 32 ≤ c.toNat ∧ c.toNat < 0x80) →
    (∀ j, rd (4 + (start + j)) = some (padTo4 ((d.map Char.toNat).drop (4 * j)))) →
    d.length / 4 + 1 ≤ fuel →
    readLoop rd fuel start acc trace =
      (acc ++ d.map Char.toNat, .finished, trace ++ loopIdx start (d.length / 4 + 1)) := by
  intro N
  induction N with
  | zero =>
    intro d start acc trace fuel hN hd hblk hfuel
    have hdnil : d = [] := List.length_eq_zero.mp (by omega)
    subst hdnil
    match fuel, hfuel with
    | f + 1, _ =>
      have h0 := hblk 0
      rw [Nat.add_zero] at h0
      rw [readLoop_succ_some rd f start acc trace _ h0]
      rw [show ((([] : List Char).map Char.toNat).drop (4 * 0)) = [] from rfl, padTo4_nil,
        show stripNulls (utf8Decode [0, 0, 0, 0]) = [] from rfl]
      rw [if_pos (by simp)]
      simp [loopIdx, utf8Str]
  | succ N ih =>
    intro d start acc trace fuel hN hd hblk hfuel
    by_cases hlt : d.length < 4
    · match fuel, hfuel with
      | f + 1, _ =>
        have h0 := hblk 0
        rw [Nat.add_zero] at h0
        rw [show (d.map Char.toNat).drop (4 * 0) = d.map Char.toNat from rfl] at h0
        rw [readLoop_succ_some rd f start acc trace _ h0,
          block_text_short d hd (by omega), if_pos hlt]
        rw [utf8Str_ascii d fun c hc => (hd c hc).2]
        have hq : d.length / 4 = 0 := by omega
        rw [hq]
        rfl
    · match fuel, hfuel with
      | f + 1, _ =>
        have h0 := hblk 0
        rw [Nat.add_zero] at h0
        rw [show (d.map Char.toNat).drop (4 * 0) = d.map Char.toNat from rfl] at h0
        have htk : (d.map Char.toNat).take 4 = (d.take 4).map Char.toNat := by
          rw [List.map_take]
        have hpad : padTo4 (d.map Char.toNat) = padTo4 ((d.take 4).map Char.toNat) := by
          rw [show (d.take 4).map Char.toNat = (d.map Char.toNat).take 4 from by
            rw [List.map_take], padTo4, padTo4, List.take_take]
          norm_num
        rw [hpad] at h0
        have hmem4 : ∀ c ∈ d.take 4, 32 ≤ c.toNat ∧ c.toNat < 0x80 :=
          fun c hc => hd c (List.mem_of_mem_take hc)
        have hlen4 : (d.take 4).length = 4 := by
          rw [List.length_take]
          omega
        rw [readLoop_succ_some rd f start acc trace _ h0,
          block_text_full (d.take 4) hmem4 hlen4, if_neg (by omega)]
        have hkey := ih (d.drop 4) (start + 1)
          (acc ++ utf8Str (d.take 4)) (trace ++ [4 + start]) f
          (by simp only [List.length_drop]; omega)
          (fun c hc => hd c (List.mem_of_mem_drop hc))
          (fun j => by
            have := hblk (j + 1)
            rw [show start + (j + 1) = start + 1 + j from by omega] at this
            rw [this]
            congr 2
            rw [List.map_drop, List.drop_drop]
            congr 1
            omega)
          (by simp only [List.length_drop]; omega)
        rw [hkey]
        rw [utf8Str_ascii (d.take 4) fun c hc => (hmem4 c hc).2]
        have hsplit : (d.take 4).map Char.toNat ++ (d.drop 4).map Char.toNat =
            d.map Char.toNat := by
          rw [← List.map_append, List.take_append_drop]
        have hq : (d.drop 4).length / 4 + 1 = d.length / 4 := by
          simp only [List.length_drop]
          omega
        rw [hq, ← hsplit]
        simp [loopIdx, List.append_assoc]

/- ===================== end-to-end pipeline ===================== -/

theorem nfcWrite_accepted (body : JVal)
    (h : ¬ 180 < byteLength (jsonStr (.jobj (jsSpread body)))) :
    nfcWrite true body =
      (.ok, (List.range ((encodeBuffer (jsonStr (.jobj (jsSpread body)))).length / 4)).map
        fun i => (4 + i,
          ((encodeBuffer (jsonStr (.jobj (jsSpread body)))).drop (4 * i)).take 4)) := by
  show (if 180 < byteLength (jsonStr (.jobj (jsSpread body))) then
      ((WriteOutcome.payloadTooLarge, []) : WriteOutcome × List (Nat × List Nat))
    else (.ok, (List.range ((encodeBuffer (jsonStr (.jobj (jsSpread body)))).length / 4)).map
      fun i => (4 + i,
        ((encodeBuffer (jsonStr (.jobj (jsSpread body)))).drop (4 * i)).take 4))) = _
  rw [if_neg h]

theorem nfcRead_run (rd : Nat → Option (List Nat)) (fuel : Nat) :
    nfcRead (some ⟨true, rd⟩) fuel =
      (match readLoop rd fuel 0 [] [] with
      | (_, .outOfFuel, trace) => (.diverged, trace)
      | (buf, .finished, trace) =>
        if (jsTrim (stripNulls (utf8Decode buf))).head? = some '{' ∧
            (jsTrim (stripNulls (utf8Decode buf))).getLast? = some '}' then
          match jsonParse (jsTrim (stripNulls (utf8Decode buf))) with
          | some v => (ReadOutcome.ok v, trace)
          | none => (ReadOutcome.parseError, trace)
        else (ReadOutcome.malformedFraming, trace)) := rfl

/-- The medium written for an ASCII string holds, at every relative block
index, the zero-padded window of the string's bytes. -/
theorem medium_blocks (s : List Char) (hA : ∀ c ∈ s, c.toNat < 0x80) (j : Nat) :
    applyWrites ((List.range ((encodeBuffer s).length / 4)).map
        fun i => (4 + i, ((encodeBuffer s).drop (4 * i)).take 4)) zeroMedium (4 + j) =
      padTo4 ((s.map Char.toNat).drop (4 * j)) := by
  rw [applyWrites_chunks (fun i => ((encodeBuffer s).drop (4 * i)).take 4)
    ((encodeBuffer s).length / 4) zeroMedium (4 + j)]
  have hlen := encodeBuffer_len s
  have hmod := padLen_mod4 s
  have hle : s.length ≤ padLen s := by
    have h1 := le_padLen s
    rw [utf16Len_ascii s hA] at h1
    exact h1
  by_cases hj : j < (encodeBuffer s).length / 4
  · rw [if_pos (by omega), show 4 + j - 4 = j from by omega,
      encodeBuffer_ascii s hA,
      slice_padded (s.map Char.toNat) (padLen s - s.length) j
        (by simp only [List.length_map]; omega)]
  · rw [if_neg (by omega)]
    have hdrop : (s.map Char.toNat).drop (4 * j) = [] := by
      apply List.drop_eq_nil_of_le
      simp only [List.length_map]
      omega
    rw [hdrop, padTo4_nil]
    rfl

theorem roundtrip_pipeline (flds : List (List Char × JVal)) (fuel : Nat)
    (hg : goodKeys (.jobj flds) = true)
    (hA : ∀ c ∈ jsonStr (.jobj flds), c.toNat < 0x80)
    (hsz : byteLength (jsonStr (.jobj flds)) ≤ 180)
    (hfuel : (jsonStr (.jobj flds)).length / 4 + 1 ≤ fuel) :
    (nfcRead (some (mediumReader (nfcWrite true (.jobj flds)).2)) fuel).1 =
      .ok (.jobj flds) := by
  have hdist : distinctKeys flds = true := by
    have : goodKeys (.jobj flds) = (distinctKeys flds && goodKeysFields flds) := rfl
    rw [this] at hg
    exact (Bool.and_eq_true .. ▸ hg).1
  have hspread : jsSpread (.jobj flds) = flds := by
    show dedupFields flds = flds
    exact dedupFields_distinct flds hdist
  have hok := nfcWrite_accepted (.jobj flds) (by rw [hspread]; omega)
  rw [hspread] at hok
  rw [hok]
  have hge32 : ∀ c ∈ jsonStr (.jobj flds), 32 ≤ c.toNat := jsonStr_ge32 (.jobj flds)
  have hloop := readLoop_ascii
    (fun a => some (applyWrites ((List.range ((encodeBuffer (jsonStr (.jobj flds))).length / 4)).map
      fun i => (4 + i, ((encodeBuffer (jsonStr (.jobj flds))).drop (4 * i)).take 4))
      zeroMedium a))
    (jsonStr (.jobj flds)).length (jsonStr (.jobj flds)) 0 [] [] fuel (le_refl _)
    (fun c hc => ⟨hge32 c hc, hA c hc⟩)
    (fun j => by
      rw [show (0 : Nat) + j = j from by omega]
      exact congrArg some (medium_blocks (jsonStr (.jobj flds)) hA j))
    hfuel
  rw [show mediumReader ((List.range ((encodeBuffer (jsonStr (.jobj flds))).length / 4)).map
      fun i => (4 + i, ((encodeBuffer (jsonStr (.jobj flds))).drop (4 * i)).take 4)) =
    ⟨true, fun a => some (applyWrites ((List.range
      ((encodeBuffer (jsonStr (.jobj flds))).length / 4)).map
      fun i => (4 + i, ((encodeBuffer (jsonStr (.jobj flds))).drop (4 * i)).take 4))
      zeroMedium a)⟩ from rfl]
  rw [nfcRead_run, hloop]
  have hds : jsTrim (stripNulls (utf8Decode ([] ++ (jsonStr (.jobj flds)).map Char.toNat))) =
      jsonStr (.jobj flds) := by
    rw [List.nil_append, utf8Decode_map_toNat _ hA,
      stripNulls_no_nul _ (fun c hc => by have := hge32 c hc; omega)]
    refine jsTrim_eq_self _ ?_ ?_
    · intro c hc
      rw [(jobjStr_ends flds).1] at hc
      cases hc
      decide
    · intro c hc
      rw [(jobjStr_ends flds).2] at hc
      cases hc
      decide
  show (if (jsTrim (stripNulls (utf8Decode ([] ++ (jsonStr (.jobj flds)).map Char.toNat)))).head? =
        some '{' ∧
      (jsTrim (stripNulls (utf8Decode ([] ++ (jsonStr (.jobj flds)).map Char.toNat)))).getLast? =
        some '}' then
    match jsonParse (jsTrim (stripNulls (utf8Decode ([] ++
        (jsonStr (.jobj flds)).map Char.toNat)))) with
    | some v => (ReadOutcome.ok v, [] ++ loopIdx 0 ((jsonStr (.jobj flds)).length / 4 + 1))
    | none => (ReadOutcome.parseError, [] ++ loopIdx 0 ((jsonStr (.jobj flds)).length / 4 + 1))
  else (ReadOutcome.malformedFraming,
    [] ++ loopIdx 0 ((jsonStr (.jobj flds)).length / 4 + 1))).1 = _
  rw [hds, if_pos ⟨(jobjStr_ends flds).1, (jobjStr_ends flds).2⟩,
    jsonParse_jsonStr (.jobj flds) hg]

/- ===================== claim C1 ===================== -/

/-- C1 (amended: restricted to payloads whose UTF-8 serialization is pure
ASCII): for every JSON-object payload whose serialization is between 1 and
180 bytes and all-ASCII, writing it via the `/nfcWrite` path and reading the
uncorrupted medium back via the `/nfcRead` loop returns a payload deep-equal
to the original. -/
theorem C1_roundtrip_ascii (flds : List (List Char × JVal)) (fuel : Nat)
    (hg : goodKeys (.jobj flds) = true)
    (hA : ∀ c ∈ jsonStr (.jobj flds), c.toNat < 0x80)
    (_hsz1 : 1 ≤ byteLength (jsonStr (.jobj flds)))
    (hsz : byteLength (jsonStr (.jobj flds)) ≤ 180)
    (hfuel : (jsonStr (.jobj flds)).length / 4 + 1 ≤ fuel) :
    (nfcRead (some (mediumReader (nfcWrite true (.jobj flds)).2)) fuel).1 =
      .ok (.jobj flds) :=
  roundtrip_pipeline flds fuel hg hA hsz hfuel

/-- C1 witness: the round trip at the concrete payload `{"a":1}`. -/
theorem C1_roundtrip_witness :
    (nfcRead (some (mediumReader (nfcWrite true
        (.jobj [(['a'], .jnum 1)])).2)) 46).1 = .ok (.jobj [(['a'], .jnum 1)]) :=
  C1_roundtrip_ascii [(['a'], .jnum 1)] 46 (by decide) (by decide) (by decide) (by decide)
    (by decide)

/-- C1 counterexample: the claim as stated (any payload of 1–180 serialized
bytes) fails on a non-ASCII payload — its 24-byte serialization is within
bounds, yet reading back yields `MalformedFraming`, not the payload. -/
theorem C1_nonascii_counterexample :
    1 ≤ byteLength (jsonStr c1Payload) ∧ byteLength (jsonStr c1Payload) ≤ 180 ∧
    (nfcRead (some (mediumReader (nfcWrite true c1Payload).2)) 46).1 =
      .malformedFraming ∧
    (nfcRead (some (mediumReader (nfcWrite true c1Payload).2)) 46).1 ≠ .ok c1Payload := by
  decide

/- ===================== claim C2 ===================== -/

theorem utf8Char_len_pos (c : Char) : 1 ≤ (utf8Char c).length := by
  rw [utf8Char]
  split_ifs <;> simp

theorem utf8Char_len_supp (c : Char) (h : 0x10000 ≤ c.toNat) : (utf8Char c).length = 4 := by
  rw [utf8Char]
  split_ifs <;> first | omega | rfl

theorem utf16Len_le_byteLength (s : List Char) : utf16Len s ≤ byteLength s := by
  induction s with
  | nil => exact Nat.le_refl 0
  | cons c t ih =>
    rw [byteLength_cons]
    show (if c.toNat < 0x10000 then 1 else 2) + utf16Len t ≤ _
    have h1 := utf8Char_len_pos c
    by_cases h : c.toNat < 0x10000
    · rw [if_pos h]
      omega
    · rw [if_neg h]
      have h4 := utf8Char_len_supp c (by omega)
      omega

/-- C2 (amended): for every payload the write path accepts, the allocated
buffer's length is a multiple of 4 and at least the serialization's UTF-16
length (the length the route actually measures); when the serialization is
pure ASCII this is also at least the UTF-8 byte length, the serialized bytes
occupy the start of the buffer, and the tail is zero-filled. -/
theorem C2_padding (body : JVal)
    (_hacc : byteLength (jsonStr (.jobj (jsSpread body))) ≤ 180) :
    (encodeBuffer (jsonStr (.jobj (jsSpread body)))).length % 4 = 0 ∧
    utf16Len (jsonStr (.jobj (jsSpread body))) ≤
      (encodeBuffer (jsonStr (.jobj (jsSpread body)))).length ∧
    ((∀ c ∈ jsonStr (.jobj (jsSpread body)), c.toNat < 0x80) →
      byteLength (jsonStr (.jobj (jsSpread body))) ≤
        (encodeBuffer (jsonStr (.jobj (jsSpread body)))).length ∧
      encodeBuffer (jsonStr (.jobj (jsSpread body))) =
        utf8Str (jsonStr (.jobj (jsSpread body))) ++
          List.replicate ((encodeBuffer (jsonStr (.jobj (jsSpread body)))).length -
            byteLength (jsonStr (.jobj (jsSpread body)))) 0) := by
  have hlen := encodeBuffer_len (jsonStr (.jobj (jsSpread body)))
  have hmod := padLen_mod4 (jsonStr (.jobj (jsSpread body)))
  have hple := le_padLen (jsonStr (.jobj (jsSpread body)))
  refine ⟨by omega, by omega, fun hA => ⟨?_, ?_⟩⟩
  · rw [byteLength_ascii _ hA, hlen]
    rw [utf16Len_ascii _ hA] at hple
    exact hple
  · rw [utf8Str_ascii _ hA, byteLength_ascii _ hA, hlen, encodeBuffer_ascii _ hA]

/-- C2 witness: the padding facts at the concrete payload `{"a":1}`
(7 serialized bytes, buffer of 8). -/
theorem C2_padding_witness :
    (encodeBuffer (jsonStr (.jobj (jsSpread (.jobj [(['a'], .jnum 1)]))))).length % 4 = 0 ∧
    utf16Len (jsonStr (.jobj (jsSpread (.jobj [(['a'], .jnum 1)])))) ≤
      (encodeBuffer (jsonStr (.jobj (jsSpread (.jobj [(['a'], .jnum 1)]))))).length ∧
    ((∀ c ∈ jsonStr (.jobj (jsSpread (.jobj [(['a'], .jnum 1)]))), c.toNat < 0x80) →
      byteLength (jsonStr (.jobj (jsSpread (.jobj [(['a'], .jnum 1)])))) ≤
        (encodeBuffer (jsonStr (.jobj (jsSpread (.jobj [(['a'], .jnum 1)]))))).length ∧
      encodeBuffer (jsonStr (.jobj (jsSpread (.jobj [(['a'], .jnum 1)])))) =
        utf8Str (jsonStr (.jobj (jsSpread (.jobj [(['a'], .jnum 1)])))) ++
          List.replicate ((encodeBuffer (jsonStr (.jobj (jsSpread
            (.jobj [(['a'], .jnum 1)]))))).length -
            byteLength (jsonStr (.jobj (jsSpread (.jobj [(['a'], .jnum 1)]))))) 0) :=
  C2_padding (.jobj [(['a'], .jnum 1)]) (by decide)

/-- C2 counterexample: a payload the write path accepts (20 serialized
bytes ≤ 180) whose buffer is only 12 bytes — smaller than the byte length,
so data is truncated, refuting the claim as stated. -/
theorem C2_counterexample :
    byteLength (jsonStr (.jobj (jsSpread c2Payload))) ≤ 180 ∧
    (encodeBuffer (jsonStr (.jobj (jsSpread c2Payload)))).length <
      byteLength (jsonStr (.jobj (jsSpread c2Payload))) := by
  decide

/- ===================== claim C3 ===================== -/

theorem utf16Len_pos (s : List Char) (h : s ≠ []) : 1 ≤ utf16Len s := by
  cases s with
  | nil => exact absurd rfl h
  | cons c t =>
    show (if c.toNat < 0x10000 then 1 else 2) + utf16Len t ≥ 1
    split <;> omega

/-- C3: a payload whose serialization is exactly 180 bytes is accepted by
the write path (the route returns success and issues block writes), while a
payload of exactly 181 bytes is rejected with the size-limit outcome before
any block write is issued. -/
theorem C3_size_boundary (body180 body181 : JVal)
    (h180 : byteLength (jsonStr (.jobj (jsSpread body180))) = 180)
    (h181 : byteLength (jsonStr (.jobj (jsSpread body181))) = 181) :
    (nfcWrite true body180).1 = .ok ∧ (nfcWrite true body180).2 ≠ [] ∧
    nfcWrite true body181 = (.payloadTooLarge, []) := by
  refine ⟨?_, ?_, ?_⟩
  · rw [nfcWrite_accepted body180 (by omega)]
  · rw [nfcWrite_accepted body180 (by omega)]
    have hne : jsonStr (.jobj (jsSpread body180)) ≠ [] := by
      intro hnil
      rw [hnil] at h180
      exact absurd h180 (by decide)
    have h1 := utf16Len_pos _ hne
    have h2 := encodeBuffer_len (jsonStr (.jobj (jsSpread body180)))
    have h3 : 4 ≤ padLen (jsonStr (.jobj (jsSpread body180))) := by
      show 4 ≤ (utf16Len _ + 3) / 4 * 4
      omega
    intro hnil
    rw [List.map_eq_nil_iff, List.range_eq_nil] at hnil
    omega
  · show (if 180 < byteLength (jsonStr (.jobj (jsSpread body181))) then
        ((WriteOutcome.payloadTooLarge, []) : WriteOutcome × List (Nat × List Nat))
      else _) = _
    rw [if_pos (by omega)]

set_option maxRecDepth 40000 in
/-- C3 witness: concrete payloads of exactly 180 and 181 serialized bytes
(string values of 172 and 173 `x`s). -/
theorem C3_size_boundary_witness :
    (nfcWrite true (.jobj [(['a'], .jstr (List.replicate 172 'x'))])).1 = .ok ∧
    (nfcWrite true (.jobj [(['a'], .jstr (List.replicate 172 'x'))])).2 ≠ [] ∧
    nfcWrite true (.jobj [(['a'], .jstr (List.replicate 173 'x'))]) =
      (.payloadTooLarge, []) :=
  C3_size_boundary (.jobj [(['a'], .jstr (List.replicate 172 'x'))])
    (.jobj [(['a'], .jstr (List.replicate 173 'x'))]) (by decide) (by decide)

/- ===================== claim C4 ===================== -/

theorem optFull (rd : Nat → Option (List Nat)) (j : Nat)
    (h : (rd (4 + j)).isSome = true ∧
      4 ≤ (stripNulls (utf8Decode ((rd (4 + j)).getD []))).length) :
    ∃ b, rd (4 + j) = some b ∧ 4 ≤ (stripNulls (utf8Decode b)).length := by
  rcases ho : rd (4 + j) with _ | b
  · rw [ho] at h
    simp at h
  · rw [ho] at h
    exact ⟨b, rfl, by simpa using h.2⟩

theorem loopIdx_bound : ∀ (m start : Nat) (x : Nat), x ∈ loopIdx start m → x < 4 + start + m := by
  intro m
  induction m with
  | zero => intro start x hx; simp [loopIdx] at hx
  | succ m ih =>
    intro start x hx
    rcases List.mem_cons.mp hx with rfl | hx
    · omega
    · have := ih (start + 1) x hx
      omega

/-- C4: when the first `k` blocks all decode to 4 stripped characters and
block `k` decodes to fewer, the loop finishes right after reading block
`k`, its reads are exactly blocks `4 … 4+k`, and in particular no index
beyond `4+k` (such as block `4+k+1`) is ever read. -/
theorem C4_short_block_stops (rd : Nat → Option (List Nat)) (fuel k : Nat)
    (hfull : ∀ j, j < k → (rd (4 + j)).isSome = true ∧
      4 ≤ (stripNulls (utf8Decode ((rd (4 + j)).getD []))).length)
    (hshort : (rd (4 + k)).isSome = true ∧
      (stripNulls (utf8Decode ((rd (4 + k)).getD []))).length < 4)
    (hfuel : k < fuel) :
    (readLoop rd fuel 0 [] []).2 = (.finished, loopIdx 0 (k + 1)) ∧
    ∀ x ∈ (readLoop rd fuel 0 [] []).2.2, x < 5 + k := by
  have hstop := readLoop_shortStop k rd 0 [] [] fuel
    (fun j hj => by rw [Nat.zero_add]; exact optFull rd j (hfull j hj))
    (by
      rw [Nat.zero_add]
      rcases ho : rd (4 + k) with _ | b
      · rw [ho] at hshort
        simp at hshort
      · rw [ho] at hshort
        exact ⟨b, rfl, by simpa using hshort.2⟩)
    hfuel
  rw [hstop]
  refine ⟨rfl, fun x hx => ?_⟩
  simp only [List.nil_append] at hx
  have := loopIdx_bound (k + 1) 0 x hx
  omega

/-- C4 witness: with `c4Reader` (blocks full, full, 2-stripped-chars), the
loop reads exactly blocks 4, 5, 6 and never block 7. -/
theorem C4_short_block_witness :
    (readLoop c4Reader 46 0 [] []).2 = (.finished, loopIdx 0 (2 + 1)) ∧
    ∀ x ∈ (readLoop c4Reader 46 0 [] []).2.2, x < 5 + 2 :=
  C4_short_block_stops c4Reader 46 2 (by decide) (by decide) (by decide)

/- ===================== claim C5 ===================== -/

/-- C5: a block-read failure at loop index `k` (after `k` full blocks) ends
the loop quietly; decoding continues with the bytes accumulated so far, and
when that text passes the framing check and parses, the route still returns
the payload rather than a read error. -/
theorem C5_read_failure_quiet (rd : Nat → Option (List Nat)) (fuel k : Nat) (v : JVal)
    (hfull : ∀ j, j < k → (rd (4 + j)).isSome = true ∧
      4 ≤ (stripNulls (utf8Decode ((rd (4 + j)).getD []))).length)
    (hfail : rd (4 + k) = none)
    (hfuel : k < fuel)
    (hhead : (jsTrim (stripNulls (utf8Decode (loopBuf rd 0 k)))).head? = some '{')
    (hlast : (jsTrim (stripNulls (utf8Decode (loopBuf rd 0 k)))).getLast? = some '}')
    (hparse : jsonParse (jsTrim (stripNulls (utf8Decode (loopBuf rd 0 k)))) = some v) :
    (nfcRead (some ⟨true, rd⟩) fuel).1 = .ok v := by
  have hstop := readLoop_failStop k rd 0 [] [] fuel
    (fun j hj => by rw [Nat.zero_add]; exact optFull rd j (hfull j hj))
    (by rw [Nat.zero_add]; exact hfail)
    hfuel
  rw [nfcRead_run, hstop]
  show (if (jsTrim (stripNulls (utf8Decode ([] ++ loopBuf rd 0 k)))).head? = some '{' ∧
      (jsTrim (stripNulls (utf8Decode ([] ++ loopBuf rd 0 k)))).getLast? = some '}' then
    match jsonParse (jsTrim (stripNulls (utf8Decode ([] ++ loopBuf rd 0 k)))) with
    | some v2 => (ReadOutcome.ok v2, [] ++ loopIdx 0 (k + 1))
    | none => (ReadOutcome.parseError, [] ++ loopIdx 0 (k + 1))
  else (ReadOutcome.malformedFraming, [] ++ loopIdx 0 (k + 1))).1 = _
  rw [List.nil_append, if_pos ⟨hhead, hlast⟩, hparse]

/-- C5 witness: with `c5Reader`, the failed third read is treated as end of
data and the route returns the payload `{"ab":1}`. -/
theorem C5_read_failure_witness :
    (nfcRead (some ⟨true, c5Reader⟩) 46).1 = .ok (.jobj [(['a', 'b'], .jnum 1)]) :=
  C5_read_failure_quiet c5Reader 46 2 (.jobj [(['a', 'b'], .jnum 1)])
    (by decide) (by decide) (by decide) (by decide) (by decide) (by decide)

/- ===================== claim C6 ===================== -/

/-- C6: whenever the loop terminates and the reconstructed, null-stripped,
trimmed text does not both start with `{` and end with `}`, the read
operation returns the malformed-framing outcome — it neither crashes nor
returns a payload. -/
theorem C6_malformed_framing (rd : Nat → Option (List Nat)) (fuel : Nat)
    (hterm : (readLoop rd fuel 0 [] []).2.1 = .finished)
    (hbad : ¬((jsTrim (stripNulls (utf8Decode (readLoop rd fuel 0 [] []).1))).head? =
        some '{' ∧
      (jsTrim (stripNulls (utf8Decode (readLoop rd fuel 0 [] []).1))).getLast? =
        some '}')) :
    (nfcRead (some ⟨true, rd⟩) fuel).1 = .malformedFraming := by
  rcases hres : readLoop rd fuel 0 [] [] with ⟨buf, st, trace⟩
  rw [hres] at hterm hbad
  simp only at hterm
  subst hterm
  rw [nfcRead_run, hres]
  show (if (jsTrim (stripNulls (utf8Decode buf))).head? = some '{' ∧
      (jsTrim (stripNulls (utf8Decode buf))).getLast? = some '}' then
    match jsonParse (jsTrim (stripNulls (utf8Decode buf))) with
    | some v => (ReadOutcome.ok v, trace)
    | none => (ReadOutcome.parseError, trace)
  else (ReadOutcome.malformedFraming, trace)).1 = _
  rw [if_neg (by simpa using hbad)]

/-- C6 witness: reading `hello` yields the malformed-framing outcome. -/
theorem C6_malformed_witness :
    (nfcRead (some ⟨true, c6Reader⟩) 46).1 = .malformedFraming :=
  C6_malformed_framing c6Reader 46 (by decide) (by decide)

/- ===================== claim C7 ===================== -/

/-- C7: with no reader attached, the write route and the read route both
fail with the no-reader outcome and issue no block I/O at all. -/
theorem C7_no_reader (body : JVal) (fuel : Nat) :
    nfcWrite false body = (.noReader, []) ∧ nfcRead none fuel = (.noReader, []) :=
  ⟨rfl, rfl⟩

/- ===================== claim C8 ===================== -/

/-- C8: after any event history that leaves a reader attached with no card
present (no card event since the last card-removed or attach), the read
route fails with the no-card outcome and issues no block read. -/
theorem C8_no_card (evs : List NfcEvent) (rd : Nat → Option (List Nat)) (fuel : Nat)
    (h : registryState evs = some false) :
    nfcRead (sessionReader evs rd) fuel = (.noCardPresent, []) := by
  rw [sessionReader, h]
  rfl

/-- C8 witness: attach, card present, card removed — the reader is attached,
no card event has fired since the removal, and the read fails with
no-card before any block read, despite the medium holding data. -/
theorem C8_no_card_witness :
    nfcRead (sessionReader [.attach, .cardOn, .cardOff]
      (fun _ => some [123, 125, 0, 0]) ) 46 = (.noCardPresent, []) :=
  C8_no_card [.attach, .cardOn, .cardOff] (fun _ => some [123, 125, 0, 0]) 46 (by decide)

/- ===================== claim C9 ===================== -/

/-- C9: the `Missing data field` branch is unreachable — spreading any
request body yields an object, which is never falsy, so no body produces the
missing-data outcome; in particular the empty body `{}` passes the check and
is encoded and written as the two-byte payload `{}` in one zero-padded
block. -/
theorem C9_missing_data_unreachable (body : JVal) (rp : Bool) :
    (nfcWrite rp body).1 ≠ .missingData ∧
    nfcWrite true (.jobj []) = (.ok, [(4, [123, 125, 0, 0])]) := by
  constructor
  · cases rp
    · intro h
      exact WriteOutcome.noConfusion h
    · by_cases hsz : 180 < byteLength (jsonStr (.jobj (jsSpread body)))
      · have hlarge : nfcWrite true body = (.payloadTooLarge, []) := by
          show (if 180 < byteLength (jsonStr (.jobj (jsSpread body))) then
              ((WriteOutcome.payloadTooLarge, []) : WriteOutcome × List (Nat × List Nat))
            else _) = _
          rw [if_pos hsz]
        rw [hlarge]
        intro h
        exact WriteOutcome.noConfusion h
      · rw [nfcWrite_accepted body hsz]
        intro h
        exact WriteOutcome.noConfusion h
  · decide

/- ===================== claim C10 ===================== -/

/-- C10: the decode loop terminates exactly when some block read at index
`4 + k` fails or yields null-stripped text shorter than 4; consequently a
reader whose every block succeeds with 4 stripped characters keeps the loop
running forever (no fuel suffices). -/
theorem C10_loop_termination_iff (rd : Nat → Option (List Nat)) :
    (∃ fuel, (readLoop rd fuel 0 [] []).2.1 = .finished) ↔
    (∃ k, rd (4 + k) = none ∨ ((rd (4 + k)).isSome = true ∧
      (stripNulls (utf8Decode ((rd (4 + k)).getD []))).length < 4)) := by
  constructor
  · intro hfin
    by_contra hnone
    push_neg at hnone
    have hall : ∀ j, ∃ b, rd (4 + j) = some b ∧ 4 ≤ (stripNulls (utf8Decode b)).length := by
      intro j
      obtain ⟨h1, h2⟩ := hnone j
      rcases ho : rd (4 + j) with _ | b
      · exact absurd ho h1
      · refine ⟨b, rfl, ?_⟩
        have := h2 (by rw [ho]; rfl)
        rw [ho] at this
        simp only [Option.getD_some] at this
        omega
    obtain ⟨fuel, hfuel⟩ := hfin
    rw [readLoop_noStop fuel rd 0 [] [] hall] at hfuel
    exact LoopStat.noConfusion hfuel
  · rintro ⟨k, hk⟩
    induction k using Nat.strong_induction_on with
    | _ k ih =>
      by_cases hall : ∀ j, j < k → (rd (4 + j)).isSome = true ∧
          4 ≤ (stripNulls (utf8Decode ((rd (4 + j)).getD []))).length
      · refine ⟨k + 1, ?_⟩
        rcases hk with hnone | ⟨hsome, hshort⟩
        · rw [readLoop_failStop k rd 0 [] [] (k + 1)
            (fun j hj => by rw [Nat.zero_add]; exact optFull rd j (hall j hj))
            (by rw [Nat.zero_add]; exact hnone) (by omega)]
        · rw [readLoop_shortStop k rd 0 [] [] (k + 1)
            (fun j hj => by rw [Nat.zero_add]; exact optFull rd j (hall j hj))
            (by
              rw [Nat.zero_add]
              rcases ho : rd (4 + k) with _ | b
              · rw [ho] at hsome
                exact absurd hsome (by simp)
              · rw [ho] at hshort
                exact ⟨b, rfl, by simpa using hshort⟩)
            (by omega)]
      · push_neg at hall
        obtain ⟨j, hj, hbadj⟩ := hall
        refine ih j hj ?_
        rcases ho : rd (4 + j) with _ | b
        · exact Or.inl rfl
        · refine Or.inr ⟨rfl, ?_⟩
          have hb := hbadj (by rw [ho]; rfl)
          rw [ho] at hb
          simpa using hb
